import Mathlib

/-!
Shallow embedding of `Stock Correlation Project/StockCorrelationAnalysis_TS_Final.py`.

Python strings are modelled as `List Char`; a pandas `DataFrame` of prices is a
list of named columns over `Option ℚ` (`none` = NaN); values arising from
division (returns, normalized prices) live in `PVal`, which distinguishes
NaN from the two IEEE infinities so that `dropna` / `replace(inf, nan)`
steps can be modelled faithfully.
-/

/-! ### Python string helpers (model of `str.split`, `str.strip`, `str.upper`) -/

/-- Characters stripped by Python's `str.strip()` (ASCII whitespace). -/
def isPySpace (c : Char) : Bool :=
  c = ' ' || c = '\t' || c = '\n' || c = '\x0d' || c = '\x0b' || c = '\x0c'

/-- `s.strip()`: drop leading and trailing whitespace. -/
def pyStrip (s : List Char) : List Char :=
  ((s.dropWhile isPySpace).reverse.dropWhile isPySpace).reverse

/-- `c.upper()` for a single character (ASCII model). -/
def pyUpperChar (c : Char) : Char :=
  if 'a' ≤ c ∧ c ≤ 'z' then Char.ofNat (c.toNat - 32) else c

/-- `s.upper()`. -/
def pyUpper (s : List Char) : List Char := s.map pyUpperChar

/-- `s.split(",")`: split on every comma; always returns at least one piece. -/
def splitComma : List Char → List (List Char)
  | [] => [[]]
  | c :: rest =>
    match splitComma rest with
    | [] => if c = ',' then [[], []] else [[c]]
    | h :: t => if c = ',' then [] :: h :: t else (c :: h) :: t

/-- `",".join(l)`. -/
def joinComma : List (List Char) → List Char
  | [] => []
  | [x] => x
  | x :: y :: rest => x ++ ',' :: joinComma (y :: rest)

/-- `parse_tickers` (source lines 38–41):
`[t.strip().upper() for t in s.split(",") if t.strip()]`, with `[]` for a
falsy (empty) input string. -/
def parse_tickers (s : List Char) : List (List Char) :=
  if s = [] then []
  else ((splitComma s).filter (fun t => pyStrip t ≠ [])).map (fun t => pyUpper (pyStrip t))

/-- The default ticker string offered at the interactive prompt (source line 72). -/
def defaultTickerStr : List Char := "SPY,QQQ,IWM,XLK,XLF,TLT".data

/-- Interactive prompt branch (source lines 72–74): the input is stripped, a
blank answer falls back to the default ticker string. -/
def resolvePrompt (u : List Char) : List (List Char) :=
  let u' := pyStrip u
  if u' ≠ [] then parse_tickers u' else parse_tickers defaultTickerStr

/-- Ticker resolution (source lines 69–74): a supplied (truthy) `-t` string is
parsed; otherwise the interactive prompt branch runs. -/
def resolveTickers (argTickers : Option (List Char)) (userInput : List Char) :
    List (List Char) :=
  match argTickers with
  | some s => if s ≠ [] then parse_tickers s else resolvePrompt userInput
  | none => resolvePrompt userInput

/-- The resolver as the spec words it (refinement reference): split on commas,
trim each token, drop the empty tokens, upper-case, preserving order. -/
def resolverSpec (s : List Char) : List (List Char) :=
  (((splitComma s).map pyStrip).filter (fun t => t ≠ [])).map pyUpper

/-! ### Cell values

Price cells come from the provider as a finite number or NaN (`Option ℚ`).
Cells produced by division (`pct_change`, normalization) additionally may be
IEEE infinities, which pandas' `dropna` does NOT treat as missing; `PVal`
models this. -/

/-- A float cell value: NaN, a finite rational, `+inf` or `-inf`. -/
inductive PVal where
  | nan : PVal
  | fin : ℚ → PVal
  | pinf : PVal
  | ninf : PVal
deriving DecidableEq, Repr

/-- A price column: one cell per date, `none` = NaN. -/
abbrev Col := List (Option ℚ)

/-- IEEE-style division of finite `a` by finite `b` (used with `b` a price or
a first valid price): `a/0` is `±inf` by the sign of `a`, `0/0` is NaN. -/
def divVal (a b : ℚ) : PVal :=
  if b = 0 then (if a = 0 then .nan else if 0 < a then .pinf else .ninf)
  else .fin (a / b)

/-- A price table: a date index plus one named column per ticker, column-major. -/
structure PTable where
  names : List String
  dates : List String
  cols : List Col
deriving Repr, DecidableEq

/-- Number of date rows. -/
def PTable.nrows (t : PTable) : ℕ := t.dates.length

/-- Well-formedness: one column per name, every column as long as the index. -/
def PTable.WF (t : PTable) : Prop :=
  t.cols.length = t.names.length ∧ ∀ c ∈ t.cols, c.length = t.nrows

/-- `df.empty` (pandas): no rows or no columns. -/
def PTable.isEmpty (t : PTable) : Bool :=
  t.dates.isEmpty || t.names.isEmpty

/-! ### Returns: `prices.pct_change().dropna()` (source line 98)

`pct_change` (current pandas semantics, `fill_method=None`): cell `t` is
`price[t]/price[t-1] - 1` when both neighbours are present, NaN otherwise;
the first cell is always NaN.  `dropna()` then removes every row containing
a NaN (infinities are not NaN and survive). -/

/-- One `pct_change` cell from the previous and current price cell. -/
def pctCell (prev cur : Option ℚ) : PVal :=
  match prev, cur with
  | some b, some a =>
    match divVal a b with
    | .fin r => .fin (r - 1)
    | v => v
  | _, _ => .nan

/-- Recursion for `pctChange`: walk the column keeping the previous cell. -/
def pctChangeAux (prev : Option ℚ) : Col → List PVal
  | [] => []
  | y :: rest => pctCell prev y :: pctChangeAux y rest

/-- `col.pct_change()` for a single column; the head cell is NaN. -/
def pctChange (c : Col) : List PVal :=
  match c with
  | [] => []
  | x :: rest => .nan :: pctChangeAux x rest

/-- Does date row `t` of these columns contain a NaN cell? -/
def rowHasNan (cols : List (List PVal)) (t : ℕ) : Bool :=
  cols.any (fun c => c.get? t = some PVal.nan)

/-- Keep only the entries of `c` whose flag is `true`. -/
def maskKeep (keep : List Bool) (c : List PVal) : List PVal :=
  ((keep.zip c).filter (fun p => p.1)).map (fun p => p.2)

/-- `df.dropna()` on a frame with `n` rows: delete every row with a NaN cell. -/
def dropnaAnyRows (n : ℕ) (cols : List (List PVal)) : List (List PVal) :=
  let keep := (List.range n).map (fun t => !rowHasNan cols t)
  cols.map (maskKeep keep)

/-- A returns table: the tickers and one column of return cells per ticker. -/
structure RTable where
  names : List String
  cols : List (List PVal)
deriving Repr, DecidableEq

/-- `prices.pct_change().dropna()` over the whole table. -/
def returnsOf (t : PTable) : RTable :=
  ⟨t.names, dropnaAnyRows t.nrows (t.cols.map pctChange)⟩

/-! ### Correlation: `returns.corr()` (source line 99)

pandas computes, for every pair of columns, the Pearson correlation over the
rows where both cells are not NaN (pairwise-complete observations).  An entry
is NaN when fewer than two distinct observations exist, when a column has
zero variance on the common rows, or when an infinity enters the window.

A defined entry is represented exactly as a pair `(num, den)` of rationals
with `den > 0`; the real correlation value it denotes is `num / √den`
(the `1/n` factors of covariance and variances cancel in the quotient). -/

/-- The overlapping (pairwise-complete) cell pairs of two columns. -/
def overlapP (xs ys : List PVal) : List (PVal × PVal) :=
  (xs.zip ys).filter (fun p => decide (p.1 ≠ PVal.nan) && decide (p.2 ≠ PVal.nan))

/-- Extract a pair of finite values; `none` when either side is an infinity. -/
def finPair : PVal × PVal → Option (ℚ × ℚ)
  | (.fin a, .fin b) => some (a, b)
  | _ => none

/-- Pearson correlation of a list of finite observation pairs, as
`(num, den)` with value `num / √den`; `none` when either column has zero
variance over the list (this covers the empty and the singleton list). -/
def pearsonQ (l : List (ℚ × ℚ)) : Option (ℚ × ℚ) :=
  let n : ℚ := l.length
  let sa := (l.map Prod.fst).sum
  let sb := (l.map Prod.snd).sum
  let sxx := n * (l.map (fun p => p.1 ^ 2)).sum - sa ^ 2
  let syy := n * (l.map (fun p => p.2 ^ 2)).sum - sb ^ 2
  let sxy := n * (l.map (fun p => p.1 * p.2)).sum - sa * sb
  if sxx = 0 ∨ syy = 0 then none else some (sxy, sxx * syy)

/-- One correlation cell: Pearson over the pairwise-complete rows, NaN when an
infinity is among them. -/
def corrEntry (xs ys : List PVal) : Option (ℚ × ℚ) :=
  match (overlapP xs ys).mapM finPair with
  | none => none
  | some l => pearsonQ l

/-- The full ticker × ticker matrix. -/
def corrMatrix (cols : List (List PVal)) : List (List (Option (ℚ × ℚ))) :=
  cols.map (fun x => cols.map (fun y => corrEntry x y))

/-- A correlation matrix with its row/column labels. -/
structure CMatrix where
  names : List String
  entries : List (List (Option (ℚ × ℚ)))
deriving Repr, DecidableEq

/-- `returns.corr()`. -/
def corrOf (r : RTable) : CMatrix :=
  ⟨r.names, corrMatrix r.cols⟩

/-- `corr.empty or corr.shape[0] < 1` (source line 150). -/
def CMatrix.isEmpty (m : CMatrix) : Bool :=
  m.entries.isEmpty

/-! ### Top correlated pairs (source lines 169–173)

`np.triu(..., k=1)` masks to the strictly upper triangle, `.stack()` lists the
remaining defined entries row-major, `.sort_values(ascending=False)` sorts by
value descending, `.head(5)` keeps at most five. -/

/-- The defined strictly-upper-triangular entries, row-major
(`corr.where(upper).stack()`). -/
def stackUpper (m : CMatrix) : List (String × String × (ℚ × ℚ)) :=
  (List.range m.entries.length).flatMap (fun i =>
    (List.range m.entries.length).flatMap (fun j =>
      if i < j then
        match (m.entries.get? i).bind (fun row => row.get? j) with
        | some (some v) => [(m.names.getD i "", m.names.getD j "", v)]
        | _ => []
      else []))

/-- Comparison key for an entry `(num, den)` (`den > 0`): the signed square
`±num²/den` of its value `num/√den`, which orders entries exactly as their
real values do. -/
def pairKey (v : ℚ × ℚ) : ℚ :=
  if 0 ≤ v.1 then v.1 ^ 2 / v.2 else -(v.1 ^ 2 / v.2)

/-- "Descending by correlation value" as a relation on stacked entries. -/
def entryDesc (e1 e2 : String × String × (ℚ × ℚ)) : Prop :=
  pairKey e2.2.2 ≤ pairKey e1.2.2

instance entryDescDecidable : DecidableRel entryDesc :=
  fun e1 e2 => inferInstanceAs (Decidable (pairKey e2.2.2 ≤ pairKey e1.2.2))

instance entryDescTotal : IsTotal (String × String × (ℚ × ℚ)) entryDesc :=
  ⟨fun a b => le_total (pairKey b.2.2) (pairKey a.2.2)⟩

instance entryDescTrans : IsTrans (String × String × (ℚ × ℚ)) entryDesc :=
  ⟨fun _ _ _ h1 h2 => le_trans h2 h1⟩

/-- `corr.where(upper).stack().sort_values(ascending=False)` followed by
`.head(5)`. -/
def topPairs (m : CMatrix) : List (String × String × (ℚ × ℚ)) :=
  (List.insertionSort entryDesc (stackUpper m)).take 5

/-! ### Cleaner (source lines 101–108) -/

/-- Does a price column have zero non-missing observations
(`prices[c].dropna().empty`)? -/
def colAllNone (c : Col) : Bool := c.all Option.isNone

/-- `prices[valid_cols]`: keep, in original order, the columns with at least
one non-missing observation; the date index is untouched. -/
def cleanCols (t : PTable) : PTable :=
  ⟨((t.names.zip t.cols).filter (fun p => !colAllNone p.2)).map Prod.fst,
   t.dates,
   ((t.names.zip t.cols).filter (fun p => !colAllNone p.2)).map Prod.snd⟩

/-- `sorted(list(set(prices.columns) - set(valid_cols)))`: the names of the
all-missing columns, sorted. -/
def droppedNames (t : PTable) : List String :=
  List.insertionSort (fun a b : String => a ≤ b)
    (((t.names.zip t.cols).filter (fun p => colAllNone p.2)).map Prod.fst)

/-! ### Normalization (source lines 114–121) -/

/-- `col.dropna().iloc[0]`: the first non-missing value of a column (`none`
when the column is all-missing, in which case the source would raise; the
pipeline only reaches normalization with cleaned columns). -/
def firstVal (c : Col) : Option ℚ := c.findSome? id

/-- `prices[c] / first_vals[c]` for one column: each cell divided by the
column's own first non-missing value. -/
def normalizeCol (c : Col) : List PVal :=
  match firstVal c with
  | some b => c.map (fun x => match x with | none => PVal.nan | some a => divVal a b)
  | none => c.map (fun _ => PVal.nan)

/-- Is every cell of the column NaN? -/
def colAllNanP (c : List PVal) : Bool := c.all (fun v => decide (v = PVal.nan))

/-- Is every cell of date row `t` NaN? -/
def rowAllNanAt (cols : List (List PVal)) (t : ℕ) : Bool :=
  cols.all (fun c => decide (c.get? t = some PVal.nan))

/-- `df.dropna(how="all")` on a frame with `n` rows: delete the rows whose
every cell is NaN. -/
def dropAllNanRows (n : ℕ) (cols : List (List PVal)) : List (List PVal) :=
  let keep := (List.range n).map (fun t => !rowAllNanAt cols t)
  cols.map (maskKeep keep)

/-- `df.replace([np.inf, -np.inf], np.nan)` on one cell. -/
def replaceInfNan : PVal → PVal
  | .pinf => PVal.nan
  | .ninf => PVal.nan
  | v => v

/-- A normalized price table. -/
structure NTable where
  names : List String
  cols : List (List PVal)
deriving Repr, DecidableEq

/-- Source lines 114–121 in order: divide each column by its own first
non-missing value, drop all-NaN columns, drop all-NaN rows, then turn
infinities into NaN. -/
def normalizePipeline (t : PTable) : NTable :=
  let normd := t.cols.map normalizeCol
  let kept := (t.names.zip normd).filter (fun p => !colAllNanP p.2)
  let cols2 := dropAllNanRows t.nrows (kept.map Prod.snd)
  ⟨kept.map Prod.fst, cols2.map (List.map replaceInfNan)⟩

/-- `normalized.notna().any().any()` (source line 126). -/
def hasAnyNotNan (nt : NTable) : Bool :=
  nt.cols.any (fun c => c.any (fun v => decide (v ≠ PVal.nan)))

/-! ### CSV export (source lines 90–95) -/

/-- The written CSV: a header row and one record per date
(`prices.to_csv(csv_path, index_label="Date")`). -/
structure Csv where
  header : List String
  records : List (String × List (Option ℚ))
deriving Repr, DecidableEq

/-- The table content serialized by `to_csv`, date column labeled `"Date"`. -/
def csvOf (t : PTable) : Csv :=
  ⟨"Date" :: t.names,
   (List.range t.nrows).map (fun i =>
     (t.dates.getD i "", t.cols.map (fun c => (c.get? i).join)))⟩

/-- `"_".join(tickers[:5]) + ("_more" if len(tickers) > 5 else "")`. -/
def tickersPart (tickers : List String) : String :=
  String.intercalate "_" (tickers.take 5) ++ (if tickers.length > 5 then "_more" else "")

/-- `f"prices_{ts}_{tickers_part}_adj_close.csv"`. -/
def csvFileName (ts : String) (tickers : List String) : String :=
  "prices_" ++ ts ++ "_" ++ tickersPart tickers ++ "_adj_close.csv"

/-- `os.path.join` for a directory and a file name. -/
def pathJoin (dir f : String) : String := dir ++ "/" ++ f

/-! ### The pipeline (`main`, source lines 69–173, data path) -/

/-- How a run ends: the four handled "nothing to do" exits, the unhandled
`ImportError` for a missing yfinance, or a full run. -/
inductive Outcome where
  | fatalNoProvider : Outcome
  | noTickers : Outcome
  | noData : Outcome
  | emptyAfterClean : Outcome
  | emptyCorr : Outcome
  | done : Outcome
deriving DecidableEq, Repr

/-- Observable result of one `main` run: how it ended, the notable messages
printed, the CSV written (path and content), the columns the cleaner dropped,
the tables actually used after cleaning, whether each chart was produced, and
the printed top pairs. -/
structure RunTrace where
  outcome : Outcome
  msgs : List String
  csv : Option (String × Csv)
  dropped : List String
  pricesUsed : Option PTable
  returnsUsed : Option RTable
  corrUsed : Option CMatrix
  normChart : Bool
  heatmap : Bool
  pairs : List (String × String × (ℚ × ℚ))

/-- `if changed: prices = prices[valid_cols]` — the price table in use after
the cleaning step (source lines 101–106). -/
def pricesAfterClean (fetched : PTable) : PTable :=
  if (cleanCols fetched).names.length ≠ fetched.names.length then cleanCols fetched
  else fetched

/-- The part of `main` after the three early exits (source lines 89–173):
CSV export (92–95), returns and correlation (98–99), column cleaning with
recompute (101–108), empty-prices exit (110–112), normalization (114–121),
normalized-chart decision (126–145), empty-correlation exit (150–152),
heatmap and top pairs (154–173). -/
def runMainCore (tickers : List String) (fetched : PTable) (saveCsv : Bool)
    (ts : String) (outdir : String) : RunTrace :=
  let csv := if saveCsv then
      some (pathJoin outdir (csvFileName ts tickers), csvOf fetched)
    else none
  let returns0 := returnsOf fetched
  let corr0 := corrOf returns0
  let cleaned := cleanCols fetched
  let changed := cleaned.names.length ≠ fetched.names.length
  let dropped := if changed then droppedNames fetched else []
  let prices := if changed then cleaned else fetched
  let returns := if changed then returnsOf cleaned else returns0
  let corr := if changed then corrOf (returnsOf cleaned) else corr0
  if prices.isEmpty then
    { outcome := .emptyAfterClean,
      msgs := ["No price data available after dropping empty columns; skipping plots."],
      csv := csv, dropped := dropped, pricesUsed := some prices,
      returnsUsed := some returns, corrUsed := some corr,
      normChart := false, heatmap := false, pairs := [] }
  else
    let normalized := normalizePipeline prices
    let normShown := hasAnyNotNan normalized
    let normMsgs : List String :=
      if normShown then []
      else ["No finite numeric data to plot after normalization; skipping normalized chart."]
    if corr.isEmpty then
      { outcome := .emptyCorr,
        msgs := normMsgs ++ ["Correlation matrix is empty; skipping heatmap and pair listing."],
        csv := csv, dropped := dropped, pricesUsed := some prices,
        returnsUsed := some returns, corrUsed := some corr,
        normChart := normShown, heatmap := false, pairs := [] }
    else
      { outcome := .done, msgs := normMsgs, csv := csv, dropped := dropped,
        pricesUsed := some prices, returnsUsed := some returns,
        corrUsed := some corr, normChart := normShown, heatmap := true,
        pairs := topPairs corr }

/-- The data path of `main` (source lines 76–173).  Inputs: whether the
yfinance import succeeds, the resolved tickers, the table the provider
would return, the `--save-csv` flag, the UTC timestamp and the output
directory.  The early checks happen in source order: no tickers (76),
provider import (15–18, reached from 83), empty fetch (85); the rest is
`runMainCore`. -/
def runMain (providerOk : Bool) (tickers : List String) (fetched : PTable)
    (saveCsv : Bool) (ts : String) (outdir : String) : RunTrace :=
  if tickers.isEmpty then
    { outcome := .noTickers, msgs := ["No tickers specified; exiting."],
      csv := none, dropped := [], pricesUsed := none, returnsUsed := none,
      corrUsed := none, normChart := false, heatmap := false, pairs := [] }
  else if !providerOk then
    { outcome := .fatalNoProvider,
      msgs := ["yfinance is required to fetch stock data (pip install yfinance)"],
      csv := none, dropped := [], pricesUsed := none, returnsUsed := none,
      corrUsed := none, normChart := false, heatmap := false, pairs := [] }
  else if fetched.isEmpty then
    { outcome := .noData,
      msgs := ["No data returned for the requested tickers/date range; exiting."],
      csv := none, dropped := [], pricesUsed := none, returnsUsed := none,
      corrUsed := none, normChart := false, heatmap := false, pairs := [] }
  else runMainCore tickers fetched saveCsv ts outdir


/-- The finite value of a cell, if any (NaN and infinities give `none`). -/
def toOptQ : PVal → Option ℚ
  | .fin q => some q
  | _ => none

/-- The observation pairs over exactly the dates where both columns have a
defined value. -/
def pairwiseObs (xs ys : List (Option ℚ)) : List (ℚ × ℚ) :=
  (xs.zip ys).filterMap (fun p =>
    match p with
    | (some a, some b) => some (a, b)
    | _ => none)

/-- The correlation matrix as the spec words it (refinement reference): for
every pair of columns, the Pearson correlation computed only on the dates
where both columns have a defined value (pairwise-complete observations). -/
def corrSpecPairwise (cols : List (List (Option ℚ))) : List (List (Option (ℚ × ℚ))) :=
  cols.map (fun x => cols.map (fun y => pearsonQ (pairwiseObs x y)))


/-- Entry `(i, j)` of a labelled correlation matrix: `none` when out of range,
`some none` for a NaN cell, `some (some p)` for a defined cell. -/
def CMatrix.entry (m : CMatrix) (i j : ℕ) : Option (Option (ℚ × ℚ)) :=
  (m.entries.get? i).bind (fun row => row.get? j)

/-- The defined (finite) observations of a returns column. -/
def obsOf (x : List PVal) : List ℚ := x.filterMap toOptQ


/-- The first non-NaN cell of a normalized column, if any. -/
def firstNonNan (c : List PVal) : Option PVal :=
  c.find? (fun v => decide (v ≠ PVal.nan))

/-! ## Verification -/

/-! ### Facts about the character helpers -/

lemma char_eq_of_toNat_eq {c d : Char} (h : c.toNat = d.toNat) : c = d := by
  have hc := congrArg Char.ofNat h
  rwa [Char.ofNat_toNat, Char.ofNat_toNat] at hc

lemma toNat_le_of_le {c d : Char} (h : c ≤ d) : c.toNat ≤ d.toNat := by
  rw [Char.le_def] at h
  exact_mod_cast h

lemma le_of_toNat_le {c d : Char} (h : c.toNat ≤ d.toNat) : c ≤ d := by
  rw [Char.le_def]
  exact_mod_cast h

lemma lower_toNat {c : Char} (h : 'a' ≤ c ∧ c ≤ 'z') : 97 ≤ c.toNat ∧ c.toNat ≤ 122 := by
  have h1 := toNat_le_of_le h.1
  have h2 := toNat_le_of_le h.2
  have ha : ('a').toNat = 97 := rfl
  have hz : ('z').toNat = 122 := rfl
  omega

lemma pyUpperChar_toNat_lower {c : Char} (h : 'a' ≤ c ∧ c ≤ 'z') :
    (pyUpperChar c).toNat = c.toNat - 32 := by
  have hb := lower_toNat h
  rw [pyUpperChar, if_pos h, Char.ofNat, dif_pos]
  · rfl
  · exact Or.inl (by omega)

lemma pyUpperChar_eq_self {c : Char} (h : ¬('a' ≤ c ∧ c ≤ 'z')) : pyUpperChar c = c := by
  rw [pyUpperChar, if_neg h]

lemma isPySpace_false_of_big {c : Char} (h : 64 < c.toNat) : isPySpace c = false := by
  have h1 : c ≠ ' ' := fun hc => by rw [hc] at h; exact absurd h (by decide)
  have h2 : c ≠ '\t' := fun hc => by rw [hc] at h; exact absurd h (by decide)
  have h3 : c ≠ '\n' := fun hc => by rw [hc] at h; exact absurd h (by decide)
  have h4 : c ≠ '\x0d' := fun hc => by rw [hc] at h; exact absurd h (by decide)
  have h5 : c ≠ '\x0b' := fun hc => by rw [hc] at h; exact absurd h (by decide)
  have h6 : c ≠ '\x0c' := fun hc => by rw [hc] at h; exact absurd h (by decide)
  simp [isPySpace, h1, h2, h3, h4, h5, h6]

lemma isPySpace_pyUpperChar (c : Char) : isPySpace (pyUpperChar c) = isPySpace c := by
  by_cases h : 'a' ≤ c ∧ c ≤ 'z'
  · have hb := lower_toNat h
    have ht := pyUpperChar_toNat_lower h
    rw [@isPySpace_false_of_big (pyUpperChar c) (by omega),
      isPySpace_false_of_big (by omega)]
  · rw [pyUpperChar_eq_self h]

lemma pyUpperChar_not_lower (c : Char) : ¬('a' ≤ pyUpperChar c ∧ pyUpperChar c ≤ 'z') := by
  by_cases h : 'a' ≤ c ∧ c ≤ 'z'
  · have hb := lower_toNat h
    have ht := pyUpperChar_toNat_lower h
    intro hc
    have h1 := toNat_le_of_le hc.1
    have ha : ('a').toNat = 97 := rfl
    omega
  · rw [pyUpperChar_eq_self h]
    exact h

lemma pyUpperChar_idem (c : Char) : pyUpperChar (pyUpperChar c) = pyUpperChar c :=
  pyUpperChar_eq_self (pyUpperChar_not_lower c)

lemma eq_comma_of_pyUpperChar {c : Char} (h : pyUpperChar c = ',') : c = ',' := by
  by_cases hl : 'a' ≤ c ∧ c ≤ 'z'
  · have hb := lower_toNat hl
    have ht := pyUpperChar_toNat_lower hl
    rw [h] at ht
    have hc : (',').toNat = 44 := rfl
    exfalso
    omega
  · rwa [pyUpperChar_eq_self hl] at h

/-! ### Facts about `pyStrip`, `pyUpper`, `splitComma`, `joinComma` -/

lemma pyStrip_eq_rdrop (s : List Char) :
    pyStrip s = List.rdropWhile isPySpace (s.dropWhile isPySpace) := rfl

lemma dropWhile_map_upper (l : List Char) :
    (l.map pyUpperChar).dropWhile isPySpace = (l.dropWhile isPySpace).map pyUpperChar := by
  induction l with
  | nil => rfl
  | cons x xs ih =>
    simp only [List.map_cons, List.dropWhile_cons, isPySpace_pyUpperChar]
    by_cases h : isPySpace x
    · simp [h, ih]
    · simp [h]

lemma pyStrip_pyUpper (s : List Char) : pyStrip (pyUpper s) = pyUpper (pyStrip s) := by
  simp only [pyStrip, pyUpper, dropWhile_map_upper]
  rw [← List.map_reverse, dropWhile_map_upper, ← List.map_reverse]

lemma head?_dropWhile_false (p : Char → Bool) (l : List Char) :
    ∀ x, (l.dropWhile p).head? = some x → p x = false := by
  induction l with
  | nil => intro x hx; simp at hx
  | cons a as ih =>
    intro x hx
    rw [List.dropWhile_cons] at hx
    by_cases h : p a
    · rw [if_pos h] at hx
      exact ih x hx
    · rw [if_neg h] at hx
      simp only [List.head?_cons, Option.some_inj] at hx
      rw [← hx]
      exact Bool.eq_false_iff.mpr h

lemma dropWhile_eq_self_of_head? {p : Char → Bool} {l : List Char}
    (h : ∀ x, l.head? = some x → p x = false) : l.dropWhile p = l := by
  cases l with
  | nil => rfl
  | cons a as =>
    rw [List.dropWhile_cons, if_neg]
    rw [h a rfl]
    simp

lemma pyStrip_idem (s : List Char) : pyStrip (pyStrip s) = pyStrip s := by
  rw [pyStrip_eq_rdrop s, pyStrip_eq_rdrop]
  have h1 : (List.rdropWhile isPySpace (s.dropWhile isPySpace)).dropWhile isPySpace =
      List.rdropWhile isPySpace (s.dropWhile isPySpace) := by
    apply dropWhile_eq_self_of_head?
    intro x hx
    obtain ⟨t, ht⟩ := List.rdropWhile_prefix isPySpace (s.dropWhile isPySpace)
    have hu : (s.dropWhile isPySpace).head? = some x := by
      rw [← ht]
      cases hr : List.rdropWhile isPySpace (s.dropWhile isPySpace) with
      | nil => rw [hr] at hx; simp at hx
      | cons b bs =>
        rw [hr] at hx
        simp only [List.head?_cons, Option.some_inj] at hx
        simp [hx]
    exact head?_dropWhile_false isPySpace s x hu
  rw [h1, List.rdropWhile_idempotent]

lemma pyStrip_subset (s : List Char) : pyStrip s ⊆ s := by
  rw [pyStrip_eq_rdrop]
  intro c hc
  have h1 := (List.rdropWhile_prefix isPySpace (s.dropWhile isPySpace)).subset hc
  exact (List.dropWhile_suffix isPySpace).subset h1

lemma splitComma_ne_nil (s : List Char) : splitComma s ≠ [] := by
  cases s with
  | nil => simp [splitComma]
  | cons c rest =>
    rw [splitComma]
    rcases h : splitComma rest with _ | ⟨x, t⟩
    · by_cases hc : c = ',' <;> simp [hc]
    · by_cases hc : c = ',' <;> simp [hc]

lemma splitComma_cons (c : Char) (rest : List Char) {y : List Char} {t : List (List Char)}
    (h : splitComma rest = y :: t) :
    splitComma (c :: rest) = if c = ',' then [] :: y :: t else (c :: y) :: t := by
  rw [splitComma, h]

lemma comma_not_mem_splitComma (s : List Char) : ∀ x ∈ splitComma s, ',' ∉ x := by
  induction s with
  | nil =>
    intro x hx
    simp only [splitComma, List.mem_singleton] at hx
    simp [hx]
  | cons c rest ih =>
    intro x hx
    obtain ⟨y, t, h⟩ : ∃ y t, splitComma rest = y :: t := by
      rcases hr : splitComma rest with _ | ⟨y, t⟩
      · exact absurd hr (splitComma_ne_nil rest)
      · exact ⟨y, t, rfl⟩
    by_cases hc : c = ','
    · rw [splitComma_cons c rest h, if_pos hc] at hx
      rcases List.mem_cons.mp hx with hx | hx
      · simp [hx]
      · exact ih x (h ▸ hx)
    · rw [splitComma_cons c rest h, if_neg hc] at hx
      rcases List.mem_cons.mp hx with hx | hx
      · rw [hx]
        intro hmem
        rcases List.mem_cons.mp hmem with hmem | hmem
        · exact hc (by rw [hmem])
        · exact ih y (h ▸ List.mem_cons_self y t) hmem
      · exact ih x (h ▸ List.mem_cons_of_mem y hx)

lemma splitComma_of_no_comma {x : List Char} (h : ',' ∉ x) : splitComma x = [x] := by
  induction x with
  | nil => rfl
  | cons c rest ih =>
    have hc : c ≠ ',' := fun hcc => h (hcc ▸ List.mem_cons_self c rest)
    have hr : ',' ∉ rest := fun hrr => h (List.mem_cons_of_mem c hrr)
    rw [splitComma_cons c rest (ih hr), if_neg hc]

lemma splitComma_append {x : List Char} (rest : List Char) (h : ',' ∉ x) :
    splitComma (x ++ ',' :: rest) = x :: splitComma rest := by
  induction x with
  | nil =>
    simp only [List.nil_append]
    obtain ⟨y, t, hr⟩ : ∃ y t, splitComma rest = y :: t := by
      rcases hr : splitComma rest with _ | ⟨y, t⟩
      · exact absurd hr (splitComma_ne_nil rest)
      · exact ⟨y, t, rfl⟩
    rw [splitComma_cons ',' rest hr, if_pos rfl, hr]
  | cons c x' ih =>
    have hc : c ≠ ',' := fun hcc => h (hcc ▸ List.mem_cons_self c x')
    have hx' : ',' ∉ x' := fun hrr => h (List.mem_cons_of_mem c hrr)
    simp only [List.cons_append]
    rw [splitComma_cons c (x' ++ ',' :: rest) (ih hx'), if_neg hc]

lemma splitComma_joinComma {l : List (List Char)} (hne : l ≠ [])
    (h : ∀ x ∈ l, ',' ∉ x) : splitComma (joinComma l) = l := by
  induction l with
  | nil => exact absurd rfl hne
  | cons x rest ih =>
    cases rest with
    | nil =>
      rw [joinComma, splitComma_of_no_comma (h x (List.mem_cons_self x []))]
    | cons y t =>
      rw [joinComma, splitComma_append _ (h x (List.mem_cons_self x _)),
        ih (by simp) (fun z hz => h z (List.mem_cons_of_mem x hz))]

lemma pyUpper_ne_nil {t : List Char} (h : t ≠ []) : pyUpper t ≠ [] := by
  intro h0
  exact h (List.map_eq_nil_iff.mp h0)

lemma parse_tickers_elem {s x : List Char} (hx : x ∈ parse_tickers s) :
    x ≠ [] ∧ pyStrip x = x ∧ ',' ∉ x ∧ pyUpper x = x ∧
      ∀ c ∈ x, ¬('a' ≤ c ∧ c ≤ 'z') := by
  unfold parse_tickers at hx
  by_cases hs : s = []
  · rw [if_pos hs] at hx
    exact absurd hx (List.not_mem_nil x)
  · rw [if_neg hs] at hx
    obtain ⟨t, ht, rfl⟩ := List.mem_map.mp hx
    obtain ⟨hts, htne⟩ := List.mem_filter.mp ht
    have htne' : pyStrip t ≠ [] := by simpa using htne
    refine ⟨pyUpper_ne_nil htne', ?_, ?_, ?_, ?_⟩
    · rw [pyStrip_pyUpper, pyStrip_idem]
    · intro hmem
      obtain ⟨c, hc, hcc⟩ := List.mem_map.mp hmem
      have hc' : c = ',' := eq_comma_of_pyUpperChar hcc
      have hct : c ∈ t := pyStrip_subset t hc
      exact comma_not_mem_splitComma s t hts (hc' ▸ hct)
    · unfold pyUpper
      rw [List.map_map]
      have : ∀ a ∈ pyStrip t, (pyUpperChar ∘ pyUpperChar) a = pyUpperChar a :=
        fun a _ => pyUpperChar_idem a
      rw [List.map_congr_left this]
    · intro c hc
      obtain ⟨d, _, rfl⟩ := List.mem_map.mp hc
      exact pyUpperChar_not_lower d

lemma joinComma_ne_nil {x : List Char} (rest : List (List Char)) (hx : x ≠ []) :
    joinComma (x :: rest) ≠ [] := by
  cases rest with
  | nil => exact hx
  | cons y t =>
    rw [joinComma]
    simp

/-- C10: `parse_tickers` is idempotent — re-parsing the comma-join of its own
output returns the same list — and every output element is a non-empty string
with no surrounding whitespace and no lowercase letters. -/
theorem C10_parse_tickers_idempotent :
    ∀ s : List Char,
      parse_tickers (joinComma (parse_tickers s)) = parse_tickers s ∧
      ∀ x ∈ parse_tickers s,
        x ≠ [] ∧ pyStrip x = x ∧ ∀ c ∈ x, ¬('a' ≤ c ∧ c ≤ 'z') := by
  intro s
  constructor
  · cases hl : parse_tickers s with
    | nil => rfl
    | cons x rest =>
      have hmem : ∀ z ∈ x :: rest, z ∈ parse_tickers s := by
        intro z hz
        rw [hl]
        exact hz
      have hxel := parse_tickers_elem (hmem x (List.mem_cons_self x rest))
      have hne := joinComma_ne_nil rest hxel.1
      unfold parse_tickers
      rw [if_neg hne,
        splitComma_joinComma (by simp) (fun z hz => (parse_tickers_elem (hmem z hz)).2.2.1)]
      rw [List.filter_eq_self.mpr ?all]
      case all =>
        intro a ha
        have hel := parse_tickers_elem (hmem a ha)
        simp [hel.2.1, hel.1]
      have hid : ∀ a ∈ x :: rest, pyUpper (pyStrip a) = a := by
        intro a ha
        have hel := parse_tickers_elem (hmem a ha)
        rw [hel.2.1, hel.2.2.2.1]
      calc (x :: rest).map (fun t => pyUpper (pyStrip t))
          = (x :: rest).map id := List.map_congr_left (fun a ha => hid a ha)
        _ = x :: rest := List.map_id _
  · intro x hx
    have hel := parse_tickers_elem hx
    exact ⟨hel.1, hel.2.1, hel.2.2.2.2⟩


/-- C9: the resolver returns the comma-separated tokens trimmed, upper-cased,
with empty tokens dropped, in original order (checked on the spec's example
and against the spec-worded definition), and blank interactive input yields
the fixed default list SPY, QQQ, IWM, XLK, XLF, TLT. -/
theorem C9_resolver_normalizes :
    parse_tickers (" aapl, MSFT ,".data) = ["AAPL".data, "MSFT".data] ∧
    resolveTickers none (" ".data) =
      ["SPY".data, "QQQ".data, "IWM".data, "XLK".data, "XLF".data, "TLT".data] ∧
    ∀ s : List Char, parse_tickers s = resolverSpec s := by
  refine ⟨by decide, by decide, ?_⟩
  intro s
  unfold parse_tickers resolverSpec
  by_cases hs : s = []
  · rw [if_pos hs]
    subst hs
    rfl
  · rw [if_neg hs, List.filter_map, List.map_map]
    rfl

/-- Witness for C10 at the spec's example input. -/
theorem C10_witness :
    parse_tickers (joinComma (parse_tickers (" aapl, MSFT ,".data))) =
      parse_tickers (" aapl, MSFT ,".data) ∧
    ("AAPL".data ≠ [] ∧ pyStrip ("AAPL".data) = "AAPL".data ∧
      ∀ c ∈ "AAPL".data, ¬('a' ≤ c ∧ c ≤ 'z')) := by
  have h := C10_parse_tickers_idempotent (" aapl, MSFT ,".data)
  exact ⟨h.1, h.2 ("AAPL".data) (by decide)⟩

/-! ### Facts about returns -/

lemma pctChangeAux_eq_zipWith (l : Col) (prev : Option ℚ) :
    pctChangeAux prev l = List.zipWith pctCell (prev :: l) l := by
  induction l generalizing prev with
  | nil => rfl
  | cons y rest ih => rw [pctChangeAux, List.zipWith_cons_cons, ih]

lemma pctChange_get?_zero {c : Col} (h : c ≠ []) : (pctChange c).get? 0 = some PVal.nan := by
  cases c with
  | nil => exact absurd rfl h
  | cons x rest => rfl

lemma pctChange_get?_succ {c : Col} {t : ℕ} {p q : Option ℚ}
    (hp : c.get? t = some p) (hq : c.get? (t + 1) = some q) :
    (pctChange c).get? (t + 1) = some (pctCell p q) := by
  cases c with
  | nil => simp at hp
  | cons x rest =>
    rw [pctChange, pctChangeAux_eq_zipWith]
    rw [List.get?_eq_getElem?] at hp hq ⊢
    simp only [List.getElem?_cons_succ]
    rw [List.getElem?_zipWith_eq_some]
    exact ⟨p, q, hp, by simpa using hq, rfl⟩

lemma pctCell_nonzero {p q : Option ℚ} (hp : ∀ b : ℚ, p = some b → b ≠ 0) :
    pctCell p q = PVal.nan ∨ ∃ r : ℚ, pctCell p q = PVal.fin r := by
  match p, q with
  | none, _ => left; rfl
  | some b, none => left; rfl
  | some b, some a =>
    right
    refine ⟨a / b - 1, ?_⟩
    rw [pctCell, divVal, if_neg (hp b rfl)]

lemma pctChangeAux_nonzero {l : Col} {prev : Option ℚ}
    (hl : ∀ x ∈ l, ∀ b : ℚ, x = some b → b ≠ 0)
    (hprev : ∀ b : ℚ, prev = some b → b ≠ 0) :
    ∀ v ∈ pctChangeAux prev l, v = PVal.nan ∨ ∃ r : ℚ, v = PVal.fin r := by
  induction l generalizing prev with
  | nil => intro v hv; simp [pctChangeAux] at hv
  | cons y rest ih =>
    intro v hv
    rw [pctChangeAux] at hv
    rcases List.mem_cons.mp hv with hv | hv
    · rw [hv]; exact pctCell_nonzero hprev
    · exact ih (fun x hx => hl x (List.mem_cons_of_mem y hx))
        (hl y (List.mem_cons_self y rest)) v hv

lemma pctChange_nonzero {c : Col} (hc : ∀ x ∈ c, ∀ b : ℚ, x = some b → b ≠ 0) :
    ∀ v ∈ pctChange c, v = PVal.nan ∨ ∃ r : ℚ, v = PVal.fin r := by
  cases c with
  | nil => intro v hv; simp [pctChange] at hv
  | cons x rest =>
    intro v hv
    rw [pctChange] at hv
    rcases List.mem_cons.mp hv with hv | hv
    · left; exact hv
    · exact pctChangeAux_nonzero
        (fun z hz => hc z (List.mem_cons_of_mem x hz))
        (hc x (List.mem_cons_self x rest)) v hv

lemma mem_zip_index {α β : Type} {as : List α} {bs : List β} {p : α × β}
    (h : p ∈ as.zip bs) : ∃ t, as.get? t = some p.1 ∧ bs.get? t = some p.2 := by
  induction as generalizing bs with
  | nil => simp at h
  | cons a as' ih =>
    cases bs with
    | nil => simp at h
    | cons b bs' =>
      rw [List.zip_cons_cons] at h
      rcases List.mem_cons.mp h with h | h
      · exact ⟨0, by simp [h], by simp [h]⟩
      · obtain ⟨t, ht1, ht2⟩ := ih h
        exact ⟨t + 1, by simpa using ht1, by simpa using ht2⟩

lemma mem_maskKeep {keep : List Bool} {c : List PVal} {v : PVal}
    (h : v ∈ maskKeep keep c) : ∃ t, keep.get? t = some true ∧ c.get? t = some v := by
  rw [maskKeep] at h
  obtain ⟨p, hp, hpv⟩ := List.mem_map.mp h
  obtain ⟨hpz, hpt⟩ := List.mem_filter.mp hp
  obtain ⟨t, ht1, ht2⟩ := mem_zip_index hpz
  refine ⟨t, ?_, ?_⟩
  · rw [ht1]
    have : p.1 = true := by simpa using hpt
    rw [this]
  · rw [ht2, hpv]

lemma mem_maskKeep_orig {keep : List Bool} {c : List PVal} {v : PVal}
    (h : v ∈ maskKeep keep c) : v ∈ c := by
  obtain ⟨t, _, ht⟩ := mem_maskKeep h
  exact List.get?_mem ht

lemma mem_dropnaAnyRows {n : ℕ} {cols : List (List PVal)} {col : List PVal}
    (h : col ∈ dropnaAnyRows n cols) :
    ∃ pc ∈ cols, col = maskKeep ((List.range n).map (fun t => !rowHasNan cols t)) pc := by
  rw [dropnaAnyRows] at h
  obtain ⟨pc, hpc, hcol⟩ := List.mem_map.mp h
  exact ⟨pc, hpc, hcol.symm⟩

lemma returnsOf_no_nan (t : PTable) : ∀ col ∈ (returnsOf t).cols, PVal.nan ∉ col := by
  intro col hcol hnan
  obtain ⟨pc, hpc, rfl⟩ := mem_dropnaAnyRows hcol
  obtain ⟨t0, hk, hv⟩ := mem_maskKeep hnan
  have ht0 : t0 < t.nrows ∧ rowHasNan (t.cols.map pctChange) t0 = false := by
    rw [List.get?_eq_getElem?, List.getElem?_map] at hk
    rcases Nat.lt_or_ge t0 t.nrows with hlt | hge
    · rw [List.getElem?_range hlt] at hk
      refine ⟨hlt, ?_⟩
      simp only [Option.map_some'] at hk
      have hb := Option.some_inj.mp hk
      cases hrow : rowHasNan (t.cols.map pctChange) t0
      · rfl
      · rw [hrow] at hb
        simp at hb
    · rw [List.getElem?_eq_none (by simpa using hge)] at hk
      simp at hk
  have : rowHasNan (t.cols.map pctChange) t0 = true := by
    rw [rowHasNan, List.any_eq_true]
    exact ⟨pc, hpc, by simpa using hv⟩
  rw [ht0.2] at this
  exact absurd this (by simp)

/-- C8: the returns table holds `price[t]/price[t-1] - 1` for every date after
the first where both prices are present, its first cell is always NaN, rows
containing an undefined value are dropped, and on prices `[100, 110, 99]` the
returns are `[0.10, -0.10]` with normalized series `[1.0, 1.10, 0.99]`. -/
theorem C8_returns_formula :
    (∀ (c : Col) (t : ℕ) (a b : ℚ), c.get? t = some (some b) →
      c.get? (t + 1) = some (some a) → b ≠ 0 →
      (pctChange c).get? (t + 1) = some (PVal.fin (a / b - 1))) ∧
    (∀ c : Col, c ≠ [] → (pctChange c).get? 0 = some PVal.nan) ∧
    (∀ t : PTable, ∀ col ∈ (returnsOf t).cols, PVal.nan ∉ col) ∧
    returnsOf ⟨["A"], ["d1", "d2", "d3"], [[some 100, some 110, some 99]]⟩ =
      ⟨["A"], [[PVal.fin (1/10), PVal.fin (-1/10)]]⟩ ∧
    normalizePipeline ⟨["A"], ["d1", "d2", "d3"], [[some 100, some 110, some 99]]⟩ =
      ⟨["A"], [[PVal.fin 1, PVal.fin (11/10), PVal.fin (99/100)]]⟩ := by
  refine ⟨?_, fun c h => pctChange_get?_zero h, returnsOf_no_nan, ?_, ?_⟩
  · intro c t a b hb ha hb0
    rw [pctChange_get?_succ hb ha, pctCell, divVal, if_neg hb0]
  · rw [returnsOf]
    norm_num [pctChange, pctChangeAux, pctCell, divVal, dropnaAnyRows, rowHasNan,
      maskKeep, PTable.nrows, List.range_succ]
    simp
  · rw [normalizePipeline]
    norm_num [normalizeCol, firstVal, divVal, colAllNanP, dropAllNanRows, rowAllNanAt,
      maskKeep, replaceInfNan, PTable.nrows, List.range_succ]
    simp [maskKeep, replaceInfNan]

/-- Witness for C8 on a two-price column. -/
theorem C8_witness :
    (pctChange [some 100, some 110]).get? 1 = some (PVal.fin (1/10)) ∧
    (pctChange [some 100, some 110]).get? 0 = some PVal.nan := by
  have h := C8_returns_formula
  have h1 := h.1 [some 100, some 110] 0 110 100 rfl rfl (by norm_num)
  have he : PVal.fin ((110 : ℚ) / 100 - 1) = PVal.fin (1/10) := by norm_num
  exact ⟨he ▸ h1, h.2.1 [some 100, some 110] (by simp)⟩

/-! ### Extraction lemmas for the pipeline -/

lemma runMain_eq_core {providerOk : Bool} {tickers : List String} {fetched : PTable}
    {saveCsv : Bool} {ts outdir : String}
    (hT : tickers ≠ []) (hP : providerOk = true) (hF : fetched.isEmpty = false) :
    runMain providerOk tickers fetched saveCsv ts outdir =
      runMainCore tickers fetched saveCsv ts outdir := by
  rw [runMain, if_neg (by simpa using hT), hP]
  simp only [Bool.not_true, Bool.false_eq_true, if_false, hF]

lemma runMainCore_csv (tickers : List String) (fetched : PTable) (saveCsv : Bool)
    (ts outdir : String) :
    (runMainCore tickers fetched saveCsv ts outdir).csv =
      (if saveCsv then some (pathJoin outdir (csvFileName ts tickers), csvOf fetched)
       else none) := by
  by_cases hc : (cleanCols fetched).names.length ≠ fetched.names.length <;>
    (simp only [runMainCore, pricesAfterClean, hc, if_true, if_false, ite_true, ite_false]
     split_ifs <;> rfl)

lemma runMainCore_pricesUsed (tickers : List String) (fetched : PTable) (saveCsv : Bool)
    (ts outdir : String) :
    (runMainCore tickers fetched saveCsv ts outdir).pricesUsed =
      some (pricesAfterClean fetched) := by
  by_cases hc : (cleanCols fetched).names.length ≠ fetched.names.length <;>
    (simp only [runMainCore, pricesAfterClean, hc, if_true, if_false, ite_true, ite_false]
     split_ifs <;> rfl)

lemma runMainCore_returnsUsed (tickers : List String) (fetched : PTable) (saveCsv : Bool)
    (ts outdir : String) :
    (runMainCore tickers fetched saveCsv ts outdir).returnsUsed =
      some (returnsOf (pricesAfterClean fetched)) := by
  by_cases hc : (cleanCols fetched).names.length ≠ fetched.names.length <;>
    (simp only [runMainCore, pricesAfterClean, hc, if_true, if_false, ite_true, ite_false]
     split_ifs <;> rfl)

lemma runMainCore_corrUsed (tickers : List String) (fetched : PTable) (saveCsv : Bool)
    (ts outdir : String) :
    (runMainCore tickers fetched saveCsv ts outdir).corrUsed =
      some (corrOf (returnsOf (pricesAfterClean fetched))) := by
  by_cases hc : (cleanCols fetched).names.length ≠ fetched.names.length <;>
    (simp only [runMainCore, pricesAfterClean, hc, if_true, if_false, ite_true, ite_false]
     split_ifs <;> rfl)

lemma runMainCore_dropped (tickers : List String) (fetched : PTable) (saveCsv : Bool)
    (ts outdir : String) :
    (runMainCore tickers fetched saveCsv ts outdir).dropped =
      (if (cleanCols fetched).names.length ≠ fetched.names.length
       then droppedNames fetched else []) := by
  by_cases hc : (cleanCols fetched).names.length ≠ fetched.names.length <;>
    (simp only [runMainCore, pricesAfterClean, hc, if_true, if_false, ite_true, ite_false]
     split_ifs <;> rfl)

lemma runMainCore_outcome (tickers : List String) (fetched : PTable) (saveCsv : Bool)
    (ts outdir : String) :
    (runMainCore tickers fetched saveCsv ts outdir).outcome =
      (if (pricesAfterClean fetched).isEmpty then Outcome.emptyAfterClean
       else if (corrOf (returnsOf (pricesAfterClean fetched))).isEmpty then Outcome.emptyCorr
       else Outcome.done) := by
  by_cases hc : (cleanCols fetched).names.length ≠ fetched.names.length <;>
    (simp only [runMainCore, pricesAfterClean, hc, if_true, if_false, ite_true, ite_false]
     split_ifs <;> rfl)

lemma runMainCore_heatmap (tickers : List String) (fetched : PTable) (saveCsv : Bool)
    (ts outdir : String) :
    (runMainCore tickers fetched saveCsv ts outdir).heatmap =
      (!(pricesAfterClean fetched).isEmpty &&
        !(corrOf (returnsOf (pricesAfterClean fetched))).isEmpty) := by
  by_cases hc : (cleanCols fetched).names.length ≠ fetched.names.length <;>
    (simp only [runMainCore, pricesAfterClean, hc, if_true, if_false, ite_true, ite_false]
     split_ifs <;> simp_all)

lemma runMainCore_pairs (tickers : List String) (fetched : PTable) (saveCsv : Bool)
    (ts outdir : String) :
    (runMainCore tickers fetched saveCsv ts outdir).pairs =
      (if (pricesAfterClean fetched).isEmpty then []
       else if (corrOf (returnsOf (pricesAfterClean fetched))).isEmpty then []
       else topPairs (corrOf (returnsOf (pricesAfterClean fetched)))) := by
  by_cases hc : (cleanCols fetched).names.length ≠ fetched.names.length <;>
    (simp only [runMainCore, pricesAfterClean, hc, if_true, if_false, ite_true, ite_false]
     split_ifs <;> rfl)

/-! ### The correlation entry is pairwise-complete Pearson -/

lemma overlapP_cons (x y : PVal) (xs ys : List PVal) :
    overlapP (x :: xs) (y :: ys) =
      if x ≠ PVal.nan ∧ y ≠ PVal.nan then (x, y) :: overlapP xs ys
      else overlapP xs ys := by
  rw [overlapP, List.zip_cons_cons, List.filter_cons, overlapP]
  by_cases hx : x = PVal.nan <;> by_cases hy : y = PVal.nan <;> simp [hx, hy]

lemma pairwiseObs_cons_none_left (xs ys : List (Option ℚ)) (y : Option ℚ) :
    pairwiseObs (none :: xs) (y :: ys) = pairwiseObs xs ys := by
  rw [pairwiseObs, List.zip_cons_cons, List.filterMap_cons, pairwiseObs]

lemma pairwiseObs_cons_none_right (xs ys : List (Option ℚ)) (a : ℚ) :
    pairwiseObs (some a :: xs) (none :: ys) = pairwiseObs xs ys := by
  rw [pairwiseObs, List.zip_cons_cons, List.filterMap_cons, pairwiseObs]

lemma pairwiseObs_cons_some (xs ys : List (Option ℚ)) (a b : ℚ) :
    pairwiseObs (some a :: xs) (some b :: ys) = (a, b) :: pairwiseObs xs ys := by
  rw [pairwiseObs, List.zip_cons_cons, List.filterMap_cons, pairwiseObs]

lemma corrEntry_eq_spec {xs ys : List PVal}
    (hx : ∀ v ∈ xs, v = PVal.nan ∨ ∃ q, v = PVal.fin q)
    (hy : ∀ v ∈ ys, v = PVal.nan ∨ ∃ q, v = PVal.fin q) :
    corrEntry xs ys = pearsonQ (pairwiseObs (xs.map toOptQ) (ys.map toOptQ)) := by
  suffices h : (overlapP xs ys).mapM finPair =
      some (pairwiseObs (xs.map toOptQ) (ys.map toOptQ)) by
    rw [corrEntry, h]
  induction xs generalizing ys with
  | nil =>
    cases ys <;> rfl
  | cons x xs' ih =>
    cases ys with
    | nil => rfl
    | cons y ys' =>
      have hx' := fun v hv => hx v (List.mem_cons_of_mem x hv)
      have hy' := fun v hv => hy v (List.mem_cons_of_mem y hv)
      have ihx := ih hx' hy'
      rcases hx x (List.mem_cons_self x xs') with hxv | ⟨a, hxv⟩
      · subst hxv
        rw [overlapP_cons, if_neg (by simp)]
        simp only [List.map_cons]
        rw [show toOptQ PVal.nan = none from rfl, pairwiseObs_cons_none_left]
        exact ihx
      · subst hxv
        rcases hy y (List.mem_cons_self y ys') with hyv | ⟨b, hyv⟩
        · subst hyv
          rw [overlapP_cons, if_neg (by simp)]
          simp only [List.map_cons]
          rw [show toOptQ (PVal.fin a) = some a from rfl,
            show toOptQ PVal.nan = none from rfl, pairwiseObs_cons_none_right]
          exact ihx
        · subst hyv
          rw [overlapP_cons, if_pos ⟨by simp, by simp⟩]
          simp only [List.map_cons]
          rw [show toOptQ (PVal.fin a) = some a from rfl,
            show toOptQ (PVal.fin b) = some b from rfl, pairwiseObs_cons_some]
          rw [List.mapM_cons, ihx]
          rfl

lemma cleanCols_cols_subset {t : PTable} {c : Col} (h : c ∈ (cleanCols t).cols) :
    c ∈ t.cols := by
  rw [cleanCols] at h
  obtain ⟨p, hp, hpc⟩ := List.mem_map.mp h
  have hz := (List.mem_filter.mp hp).1
  exact hpc ▸ (List.of_mem_zip hz).2

lemma pricesAfterClean_cols_subset {t : PTable} {c : Col}
    (h : c ∈ (pricesAfterClean t).cols) : c ∈ t.cols := by
  rw [pricesAfterClean] at h
  split at h
  · exact cleanCols_cols_subset h
  · exact h

lemma returnsOf_nonzero_cells {t : PTable}
    (hpos : ∀ c ∈ t.cols, ∀ x ∈ c, ∀ q : ℚ, x = some q → q ≠ 0) :
    ∀ col ∈ (returnsOf t).cols, ∀ v ∈ col, v = PVal.nan ∨ ∃ r : ℚ, v = PVal.fin r := by
  intro col hcol v hv
  obtain ⟨pc, hpc, rfl⟩ := mem_dropnaAnyRows hcol
  obtain ⟨c, hc, rfl⟩ := List.mem_map.mp hpc
  exact pctChange_nonzero (hpos c hc) v (mem_maskKeep_orig hv)

lemma corrMatrix_eq_spec {cols : List (List PVal)}
    (hfin : ∀ c ∈ cols, ∀ v ∈ c, v = PVal.nan ∨ ∃ q, v = PVal.fin q) :
    corrMatrix cols = corrSpecPairwise (cols.map (List.map toOptQ)) := by
  rw [corrMatrix, corrSpecPairwise]
  simp only [List.map_map]
  apply List.map_congr_left
  intro x hx
  simp only [Function.comp_apply]
  apply List.map_congr_left
  intro y hy
  simp only [Function.comp_apply]
  exact corrEntry_eq_spec (hfin x hx) (hfin y hy)

/-- C1: whenever the pipeline carries a correlation matrix to the heatmap and
top-pairs stage, that matrix is exactly the pairwise Pearson correlation of
the daily-returns table's columns, each entry computed on the dates where both
columns have a defined return (`corrSpecPairwise`, worded from the spec); and
because the returns table was built with `dropna()`, every one of its cells is
in fact a defined value, so the pairwise-complete window of every pair is the
whole returns index.  (Prices are assumed nonzero so that no division by zero
injects IEEE infinities.) -/
theorem C1_corr_pairwise_complete
    (providerOk : Bool) (tickers : List String) (fetched : PTable)
    (saveCsv : Bool) (ts outdir : String)
    (hpos : ∀ c ∈ fetched.cols, ∀ x ∈ c, x ≠ some 0) :
    ∀ m r, (runMain providerOk tickers fetched saveCsv ts outdir).corrUsed = some m →
      (runMain providerOk tickers fetched saveCsv ts outdir).returnsUsed = some r →
      m.names = r.names ∧
      m.entries = corrSpecPairwise (r.cols.map (List.map toOptQ)) ∧
      (∀ col ∈ r.cols, ∀ v ∈ col, ∃ q : ℚ, v = PVal.fin q) := by
  intro m r hm hr
  by_cases hT : tickers = []
  · rw [runMain, if_pos (by simp [hT])] at hm
    simp at hm
  cases providerOk with
  | false =>
    rw [runMain, if_neg (by simpa using hT)] at hm
    simp at hm
  | true =>
    by_cases hF : fetched.isEmpty = true
    · rw [runMain, if_neg (by simpa using hT)] at hm
      simp only [Bool.not_true, Bool.false_eq_true, if_false, hF, if_true] at hm
      simp at hm
    · rw [runMain_eq_core hT rfl (by simpa using hF), runMainCore_corrUsed] at hm
      rw [runMain_eq_core hT rfl (by simpa using hF), runMainCore_returnsUsed] at hr
      have hm' : m = corrOf (returnsOf (pricesAfterClean fetched)) :=
        (Option.some_inj.mp hm).symm
      have hr' : r = returnsOf (pricesAfterClean fetched) :=
        (Option.some_inj.mp hr).symm
      subst hm' hr'
      have hposP : ∀ c ∈ (pricesAfterClean fetched).cols, ∀ x ∈ c,
          ∀ q : ℚ, x = some q → q ≠ 0 := by
        intro c hc x hx q hq h0
        exact hpos c (pricesAfterClean_cols_subset hc) x hx (by rw [hq, h0])
      have hfin : ∀ col ∈ (returnsOf (pricesAfterClean fetched)).cols,
          ∀ v ∈ col, v = PVal.nan ∨ ∃ q, v = PVal.fin q :=
        returnsOf_nonzero_cells hposP
      refine ⟨rfl, corrMatrix_eq_spec hfin, ?_⟩
      intro col hcol v hv
      rcases hfin col hcol v hv with hnan | hq
      · exact absurd (hnan ▸ hv) (returnsOf_no_nan _ col hcol)
      · exact hq

/-- Witness for C1 on a concrete two-ticker table. -/
theorem C1_witness :
    (runMain true ["A", "B"]
        ⟨["A", "B"], ["d1", "d2", "d3"],
          [[some 100, some 110, some 99], [some 10, some 20, some 30]]⟩
        false "" "").corrUsed =
      some (corrOf (returnsOf (pricesAfterClean
        ⟨["A", "B"], ["d1", "d2", "d3"],
          [[some 100, some 110, some 99], [some 10, some 20, some 30]]⟩))) ∧
    (corrOf (returnsOf (pricesAfterClean
        ⟨["A", "B"], ["d1", "d2", "d3"],
          [[some 100, some 110, some 99], [some 10, some 20, some 30]]⟩))).entries =
      corrSpecPairwise ((returnsOf (pricesAfterClean
        ⟨["A", "B"], ["d1", "d2", "d3"],
          [[some 100, some 110, some 99], [some 10, some 20, some 30]]⟩)).cols.map
        (List.map toOptQ)) := by
  have hm : (runMain true ["A", "B"]
      ⟨["A", "B"], ["d1", "d2", "d3"],
        [[some 100, some 110, some 99], [some 10, some 20, some 30]]⟩
      false "" "").corrUsed =
      some (corrOf (returnsOf (pricesAfterClean
        ⟨["A", "B"], ["d1", "d2", "d3"],
          [[some 100, some 110, some 99], [some 10, some 20, some 30]]⟩))) := by
    rw [runMain_eq_core (by simp) rfl (by decide), runMainCore_corrUsed]
  have hr : (runMain true ["A", "B"]
      ⟨["A", "B"], ["d1", "d2", "d3"],
        [[some 100, some 110, some 99], [some 10, some 20, some 30]]⟩
      false "" "").returnsUsed =
      some (returnsOf (pricesAfterClean
        ⟨["A", "B"], ["d1", "d2", "d3"],
          [[some 100, some 110, some 99], [some 10, some 20, some 30]]⟩)) := by
    rw [runMain_eq_core (by simp) rfl (by decide), runMainCore_returnsUsed]
  have h := C1_corr_pairwise_complete true ["A", "B"]
    ⟨["A", "B"], ["d1", "d2", "d3"],
      [[some 100, some 110, some 99], [some 10, some 20, some 30]]⟩
    false "" "" (by decide) _ _ hm hr
  exact ⟨hm, h.2.1⟩

/-! ### Cauchy–Schwarz for list sums -/

lemma sum_sq_fst_nonneg (l : List (ℚ × ℚ)) : 0 ≤ (l.map (fun p => p.1 ^ 2)).sum :=
  List.sum_nonneg (by
    intro x hx
    obtain ⟨p, _, rfl⟩ := List.mem_map.mp hx
    positivity)

lemma sum_sq_snd_nonneg (l : List (ℚ × ℚ)) : 0 ≤ (l.map (fun p => p.2 ^ 2)).sum :=
  List.sum_nonneg (by
    intro x hx
    obtain ⟨p, _, rfl⟩ := List.mem_map.mp hx
    positivity)

lemma list_cauchy_schwarz (l : List (ℚ × ℚ)) :
    ((l.map (fun p => p.1 * p.2)).sum) ^ 2 ≤
      (l.map (fun p => p.1 ^ 2)).sum * (l.map (fun p => p.2 ^ 2)).sum := by
  induction l with
  | nil => simp
  | cons x xs ih =>
    simp only [List.map_cons, List.sum_cons]
    have hA := sum_sq_fst_nonneg xs
    have hB := sum_sq_snd_nonneg xs
    set a := x.1
    set b := x.2
    set S := (xs.map (fun p => p.1 * p.2)).sum
    set A := (xs.map (fun p => p.1 ^ 2)).sum
    set B := (xs.map (fun p => p.2 ^ 2)).sum
    rcases eq_or_lt_of_le hA with hA0 | hApos
    · have h1 : S ^ 2 ≤ 0 := by
        rw [← hA0] at ih
        simpa using ih
      have h2 : S ^ 2 = 0 := le_antisymm h1 (sq_nonneg S)
      have hS0 : S = 0 := pow_eq_zero_iff two_ne_zero |>.mp h2
      rw [hS0, ← hA0]
      nlinarith [mul_nonneg (sq_nonneg a) hB]
    · nlinarith [sq_nonneg (b * A - a * S),
        mul_nonneg (add_nonneg (sq_nonneg a) hA) (sub_nonneg.mpr ih), hApos]

lemma sum_map_affine_sq (l : List (ℚ × ℚ)) (c d : ℚ) :
    (l.map (fun p => (c * p.1 + d) ^ 2)).sum =
      c ^ 2 * (l.map (fun p => p.1 ^ 2)).sum + 2 * c * d * (l.map Prod.fst).sum +
        l.length * d ^ 2 := by
  induction l with
  | nil => simp
  | cons x xs ih =>
    simp only [List.map_cons, List.sum_cons, List.length_cons, ih]
    push_cast
    ring

lemma sum_map_affine_sq_snd (l : List (ℚ × ℚ)) (c d : ℚ) :
    (l.map (fun p => (c * p.2 + d) ^ 2)).sum =
      c ^ 2 * (l.map (fun p => p.2 ^ 2)).sum + 2 * c * d * (l.map Prod.snd).sum +
        l.length * d ^ 2 := by
  induction l with
  | nil => simp
  | cons x xs ih =>
    simp only [List.map_cons, List.sum_cons, List.length_cons, ih]
    push_cast
    ring

lemma sum_map_affine_mul (l : List (ℚ × ℚ)) (c d e f : ℚ) :
    (l.map (fun p => (c * p.1 + d) * (e * p.2 + f))).sum =
      c * e * (l.map (fun p => p.1 * p.2)).sum + c * f * (l.map Prod.fst).sum +
        d * e * (l.map Prod.snd).sum + l.length * (d * f) := by
  induction l with
  | nil => simp
  | cons x xs ih =>
    simp only [List.map_cons, List.sum_cons, List.length_cons, ih]
    push_cast
    ring

/-- Cauchy–Schwarz for the `n`-scaled centered sums of `pearsonQ`. -/
lemma pearson_num_sq_le (l : List (ℚ × ℚ)) :
    ((l.length : ℚ) * (l.map (fun p => p.1 * p.2)).sum -
        (l.map Prod.fst).sum * (l.map Prod.snd).sum) ^ 2 ≤
      ((l.length : ℚ) * (l.map (fun p => p.1 ^ 2)).sum - (l.map Prod.fst).sum ^ 2) *
        ((l.length : ℚ) * (l.map (fun p => p.2 ^ 2)).sum - (l.map Prod.snd).sum ^ 2) := by
  cases l with
  | nil => simp
  | cons x0 xs0 =>
    set l' := x0 :: xs0 with hl'
    set n : ℚ := (l'.length : ℚ) with hn
    have hnpos : 0 < n := by
      rw [hn, hl', List.length_cons]
      exact_mod_cast Nat.succ_pos xs0.length
    set sa := (l'.map Prod.fst).sum
    set sb := (l'.map Prod.snd).sum
    have hcs := list_cauchy_schwarz (l'.map (fun p => (n * p.1 - sa, n * p.2 - sb)))
    rw [List.map_map, List.map_map, List.map_map] at hcs
    have e1 : (l'.map ((fun p => p.1 * p.2) ∘ fun p => (n * p.1 - sa, n * p.2 - sb))).sum =
        (l'.map (fun p => (n * p.1 + -sa) * (n * p.2 + -sb))).sum := by
      congr 1
      apply List.map_congr_left
      intro p _
      simp only [Function.comp_apply]
      ring
    have e2 : (l'.map ((fun p => p.1 ^ 2) ∘ fun p => (n * p.1 - sa, n * p.2 - sb))).sum =
        (l'.map (fun p => (n * p.1 + -sa) ^ 2)).sum := by
      congr 1
      apply List.map_congr_left
      intro p _
      simp only [Function.comp_apply]
      ring
    have e3 : (l'.map ((fun p => p.2 ^ 2) ∘ fun p => (n * p.1 - sa, n * p.2 - sb))).sum =
        (l'.map (fun p => (n * p.2 + -sb) ^ 2)).sum := by
      congr 1
      apply List.map_congr_left
      intro p _
      simp only [Function.comp_apply]
      ring
    rw [e1, e2, e3, sum_map_affine_mul, sum_map_affine_sq, sum_map_affine_sq_snd] at hcs
    have key : (n * ((l'.map (fun p => p.1 * p.2)).sum) - sa * sb) ^ 2 * n ^ 2 ≤
        ((n * (l'.map (fun p => p.1 ^ 2)).sum - sa ^ 2) *
          (n * (l'.map (fun p => p.2 ^ 2)).sum - sb ^ 2)) * n ^ 2 := by
      nlinarith [hcs]
    have hn2 : (0 : ℚ) < n ^ 2 := by positivity
    exact le_of_mul_le_mul_right key hn2

/-- The `n`-scaled variance term of `pearsonQ` is nonnegative. -/
lemma pearson_sxx_nonneg (l : List (ℚ × ℚ)) :
    0 ≤ (l.length : ℚ) * (l.map (fun p => p.1 ^ 2)).sum - (l.map Prod.fst).sum ^ 2 := by
  have hcs := list_cauchy_schwarz (l.map (fun p => (p.1, (1 : ℚ))))
  rw [List.map_map, List.map_map, List.map_map] at hcs
  have e1 : (l.map ((fun p => p.1 * p.2) ∘ fun p => (p.1, (1 : ℚ)))).sum =
      (l.map Prod.fst).sum := by
    congr 1
    apply List.map_congr_left
    intro p _
    simp
  have e2 : (l.map ((fun p => p.1 ^ 2) ∘ fun p => (p.1, (1 : ℚ)))).sum =
      (l.map (fun p => p.1 ^ 2)).sum := by
    congr 1
  have e3 : (l.map ((fun p => p.2 ^ 2) ∘ fun p => (p.1, (1 : ℚ)))).sum = (l.length : ℚ) := by
    have : (l.map ((fun p => p.2 ^ 2) ∘ fun p => (p.1, (1 : ℚ)))) =
        (l.map (fun p => (1 : ℚ))) := by
      apply List.map_congr_left
      intro p _
      simp
    rw [this, List.map_const', List.sum_replicate]
    simp
  rw [e1, e2, e3] at hcs
  linarith [hcs]

lemma pearson_syy_nonneg (l : List (ℚ × ℚ)) :
    0 ≤ (l.length : ℚ) * (l.map (fun p => p.2 ^ 2)).sum - (l.map Prod.snd).sum ^ 2 := by
  have h := pearson_sxx_nonneg (l.map Prod.swap)
  rw [List.map_map, List.map_map] at h
  have e1 : (l.map (Prod.fst ∘ Prod.swap)) = l.map Prod.snd := rfl
  have e2 : (l.map ((fun p => p.1 ^ 2) ∘ Prod.swap)) = l.map (fun p => p.2 ^ 2) := rfl
  rw [List.length_map] at h
  rw [e1, e2] at h
  exact h

/-- What a defined `pearsonQ` result is. -/
lemma pearsonQ_some {l : List (ℚ × ℚ)} {p : ℚ × ℚ} (h : pearsonQ l = some p) :
    p.1 = (l.length : ℚ) * (l.map (fun pr => pr.1 * pr.2)).sum -
        (l.map Prod.fst).sum * (l.map Prod.snd).sum ∧
    p.2 = ((l.length : ℚ) * (l.map (fun pr => pr.1 ^ 2)).sum - (l.map Prod.fst).sum ^ 2) *
        ((l.length : ℚ) * (l.map (fun pr => pr.2 ^ 2)).sum - (l.map Prod.snd).sum ^ 2) ∧
    (l.length : ℚ) * (l.map (fun pr => pr.1 ^ 2)).sum - (l.map Prod.fst).sum ^ 2 ≠ 0 ∧
    (l.length : ℚ) * (l.map (fun pr => pr.2 ^ 2)).sum - (l.map Prod.snd).sum ^ 2 ≠ 0 := by
  rw [pearsonQ] at h
  split at h
  · exact absurd h (by simp)
  · rename_i hg
    push_neg at hg
    have hp := Option.some_inj.mp h
    exact ⟨by rw [← hp], by rw [← hp], hg.1, hg.2⟩

/-- A defined correlation cell has positive denominator and `num² ≤ den`. -/
lemma pearsonQ_den_pos_num_le {l : List (ℚ × ℚ)} {p : ℚ × ℚ} (h : pearsonQ l = some p) :
    0 < p.2 ∧ p.1 ^ 2 ≤ p.2 := by
  obtain ⟨hnum, hden, hx0, hy0⟩ := pearsonQ_some h
  have hxx := pearson_sxx_nonneg l
  have hyy := pearson_syy_nonneg l
  have hxpos := lt_of_le_of_ne hxx (Ne.symm hx0)
  have hypos := lt_of_le_of_ne hyy (Ne.symm hy0)
  constructor
  · rw [hden]
    exact mul_pos hxpos hypos
  · rw [hnum, hden]
    exact pearson_num_sq_le l

/-- A cell with positive denominator and `num² ≤ den` denotes a real value
in `[-1, 1]`. -/
lemma rval_mem_Icc {num den : ℚ} (hd : 0 < den) (hle : num ^ 2 ≤ den) :
    ((num : ℝ) / Real.sqrt (den : ℝ)) ∈ Set.Icc (-1 : ℝ) 1 := by
  have hdR : (0 : ℝ) < (den : ℝ) := by exact_mod_cast hd
  have hsq : ((num : ℝ) / Real.sqrt (den : ℝ)) ^ 2 ≤ 1 := by
    rw [div_pow, Real.sq_sqrt hdR.le, div_le_one hdR]
    exact_mod_cast hle
  have habs := (sq_le_one_iff_abs_le_one _).mp hsq
  rw [Set.mem_Icc]
  exact abs_le.mp habs

/-! ### Symmetry of the correlation -/

lemma overlapP_swap (xs ys : List PVal) :
    overlapP ys xs = (overlapP xs ys).map Prod.swap := by
  rw [overlapP, overlapP, ← List.zip_swap, List.filter_map]
  congr 1
  apply List.filter_congr
  intro p _
  simp only [Function.comp_apply, Prod.fst_swap, Prod.snd_swap]
  exact Bool.and_comm _ _

lemma finPair_swap (p : PVal × PVal) :
    finPair p.swap = (finPair p).map Prod.swap := by
  cases p with
  | mk u v => cases u <;> cases v <;> rfl

lemma mapM_finPair_swap (l : List (PVal × PVal)) :
    (l.map Prod.swap).mapM finPair = (l.mapM finPair).map (List.map Prod.swap) := by
  induction l with
  | nil => rfl
  | cons p rest ih =>
    rw [List.map_cons, List.mapM_cons, List.mapM_cons, ih, finPair_swap]
    cases hfp : finPair p with
    | none => rfl
    | some q =>
      cases hrest : rest.mapM finPair <;> rfl

lemma pearsonQ_swap (l : List (ℚ × ℚ)) : pearsonQ (l.map Prod.swap) = pearsonQ l := by
  rw [pearsonQ, pearsonQ]
  simp only [List.map_map, List.length_map]
  have e1 : (l.map ((fun p => p.1 * p.2) ∘ Prod.swap)).sum =
      (l.map (fun p => p.1 * p.2)).sum := by
    congr 1
    apply List.map_congr_left
    intro p _
    simp only [Function.comp_apply, Prod.fst_swap, Prod.snd_swap]
    ring
  have e2 : l.map (Prod.fst ∘ Prod.swap) = l.map Prod.snd := rfl
  have e3 : l.map (Prod.snd ∘ Prod.swap) = l.map Prod.fst := rfl
  have e4 : l.map ((fun p => p.1 ^ 2) ∘ Prod.swap) = l.map (fun p => p.2 ^ 2) := rfl
  have e5 : l.map ((fun p => p.2 ^ 2) ∘ Prod.swap) = l.map (fun p => p.1 ^ 2) := rfl
  rw [e1, e2, e3, e4, e5]
  split_ifs with h1 h2 h2
  · rfl
  · exact absurd (Or.symm h1) h2
  · exact absurd (Or.symm h2) h1
  · simp only [Option.some_inj, Prod.mk.injEq]
    constructor
    · ring
    · ring

lemma corrEntry_comm (xs ys : List PVal) : corrEntry ys xs = corrEntry xs ys := by
  rw [corrEntry, corrEntry, overlapP_swap, mapM_finPair_swap]
  cases h : (overlapP xs ys).mapM finPair with
  | none => rfl
  | some L =>
    simp only [Option.map_some']
    exact pearsonQ_swap L

/-! ### The diagonal of the correlation -/

lemma overlapP_self (x : List PVal) :
    overlapP x x = (x.filter (fun v => decide (v ≠ PVal.nan))).map (fun v => (v, v)) := by
  induction x with
  | nil => rfl
  | cons v rest ih =>
    rw [overlapP_cons, List.filter_cons]
    by_cases h : v = PVal.nan
    · rw [if_neg (by simp [h]), ih]
      simp [h]
    · rw [if_pos ⟨h, h⟩, ih]
      simp [h]

lemma mapM_finPair_diag {x : List PVal}
    (hfin : ∀ v ∈ x, v = PVal.nan ∨ ∃ q, v = PVal.fin q) :
    (overlapP x x).mapM finPair = some ((obsOf x).map (fun q => (q, q))) := by
  rw [overlapP_self]
  induction x with
  | nil => rfl
  | cons v rest ih =>
    have hr := ih (fun w hw => hfin w (List.mem_cons_of_mem v hw))
    rcases hfin v (List.mem_cons_self v rest) with hv | ⟨q, hv⟩
    · subst hv
      rw [List.filter_cons, if_neg (by simp)]
      exact hr
    · subst hv
      rw [List.filter_cons, if_pos (by simp), List.map_cons, List.mapM_cons, hr]
      rfl

lemma scalar_affine_sq_sum (l : List ℚ) (c d : ℚ) :
    (l.map (fun a => (c * a + d) ^ 2)).sum =
      c ^ 2 * (l.map (fun a => a ^ 2)).sum + 2 * c * d * l.sum + l.length * d ^ 2 := by
  induction l with
  | nil => simp
  | cons a rest ih =>
    simp only [List.map_cons, List.sum_cons, List.length_cons, ih]
    push_cast
    ring

lemma list_sum_zero_of_nonneg {l : List ℚ} (h0 : ∀ u ∈ l, 0 ≤ u) (hs : l.sum = 0) :
    ∀ u ∈ l, u = 0 := by
  induction l with
  | nil => intro u hu; simp at hu
  | cons a rest ih =>
    rw [List.sum_cons] at hs
    have ha : 0 ≤ a := h0 a (List.mem_cons_self a rest)
    have hrest : 0 ≤ rest.sum :=
      List.sum_nonneg (fun u hu => h0 u (List.mem_cons_of_mem a hu))
    have ha0 : a = 0 := by linarith
    intro u hu
    rcases List.mem_cons.mp hu with hu | hu
    · rw [hu, ha0]
    · exact ih (fun u hu => h0 u (List.mem_cons_of_mem a hu)) (by linarith) u hu

lemma list_sum_of_const {l : List ℚ} {c : ℚ} (h : ∀ b ∈ l, b = c) :
    l.sum = l.length * c := by
  induction l with
  | nil => simp
  | cons a rest ih =>
    rw [List.sum_cons, List.length_cons,
      ih (fun b hb => h b (List.mem_cons_of_mem a hb)), h a (List.mem_cons_self a rest)]
    push_cast
    ring

/-- The variance term vanishes exactly when the observations are constant. -/
lemma sxx_zero_iff_const (qs : List ℚ) :
    (qs.length : ℚ) * (qs.map (fun q => q ^ 2)).sum - qs.sum ^ 2 = 0 ↔
      ∀ a ∈ qs, ∀ b ∈ qs, a = b := by
  constructor
  · intro h a ha b hb
    have hn : qs ≠ [] := by
      rintro rfl
      exact absurd ha (List.not_mem_nil a)
    have hnpos : (0 : ℚ) < qs.length := by
      exact_mod_cast List.length_pos.mpr hn
    set m := qs.sum / qs.length with hm
    have hexp : (qs.map (fun q => (q - m) ^ 2)).sum =
        ((qs.length : ℚ) * (qs.map (fun q => q ^ 2)).sum - qs.sum ^ 2) / qs.length := by
      have e0 : qs.map (fun q => (q - m) ^ 2) = qs.map (fun q => (1 * q + (-m)) ^ 2) := by
        apply List.map_congr_left
        intro q _
        ring_nf
      rw [e0, scalar_affine_sq_sum, hm]
      field_simp
      ring
    have hz : (qs.map (fun q => (q - m) ^ 2)).sum = 0 := by
      rw [hexp, h, zero_div]
    have hall : ∀ q ∈ qs, q = m := by
      intro q hq
      have h2 : (q - m) ^ 2 = 0 :=
        list_sum_zero_of_nonneg
          (fun u hu => by
            obtain ⟨w, _, rfl⟩ := List.mem_map.mp hu
            positivity)
          hz ((q - m) ^ 2) (List.mem_map.mpr ⟨q, hq, rfl⟩)
      have h3 : q - m = 0 := pow_eq_zero_iff two_ne_zero |>.mp h2
      linarith
    rw [hall a ha, hall b hb]
  · intro h
    cases hq : qs with
    | nil => simp
    | cons q rest =>
      have hall : ∀ b ∈ qs, b = q := fun b hb => h b hb q (by rw [hq]; simp)
      have h1 : qs.sum = qs.length * q := list_sum_of_const hall
      have h2 : (qs.map (fun u => u ^ 2)).sum = qs.length * q ^ 2 := by
        have := @list_sum_of_const (qs.map (fun u => u ^ 2)) (q ^ 2) ?_
        · rw [this, List.length_map]
        · intro b hb
          obtain ⟨w, hw, rfl⟩ := List.mem_map.mp hb
          rw [hall w hw]
      rw [← hq, h1, h2]
      ring

/-- A defined diagonal entry denotes the real value 1. -/
lemma diag_val_one {S : ℚ} (hpos : 0 < S) :
    ((S : ℝ) / Real.sqrt ((S * S : ℚ) : ℝ)) = 1 := by
  have hSR : (0 : ℝ) < (S : ℝ) := by exact_mod_cast hpos
  push_cast
  rw [show ((S : ℝ) * (S : ℝ)) = (S : ℝ) ^ 2 from by ring, Real.sqrt_sq hSR.le]
  field_simp

lemma pearsonQ_diag (qs : List ℚ) :
    pearsonQ (qs.map (fun q => (q, q))) =
      (if (qs.length : ℚ) * (qs.map (fun q => q ^ 2)).sum - qs.sum ^ 2 = 0 then none
       else some ((qs.length : ℚ) * (qs.map (fun q => q ^ 2)).sum - qs.sum ^ 2,
         ((qs.length : ℚ) * (qs.map (fun q => q ^ 2)).sum - qs.sum ^ 2) *
           ((qs.length : ℚ) * (qs.map (fun q => q ^ 2)).sum - qs.sum ^ 2))) := by
  rw [pearsonQ]
  simp only [List.map_map, List.length_map]
  have e1 : qs.map ((fun p : ℚ × ℚ => p.1 * p.2) ∘ fun q => (q, q)) =
      qs.map (fun q => q ^ 2) := by
    apply List.map_congr_left
    intro q _
    simp [pow_two]
  have e2 : qs.map (Prod.fst ∘ fun q : ℚ => (q, q)) = qs := by
    have h : (Prod.fst ∘ fun q : ℚ => (q, q)) = id := rfl
    rw [h, List.map_id]
  have e3 : qs.map (Prod.snd ∘ fun q : ℚ => (q, q)) = qs := by
    have h : (Prod.snd ∘ fun q : ℚ => (q, q)) = id := rfl
    rw [h, List.map_id]
  have e4 : qs.map ((fun p : ℚ × ℚ => p.1 ^ 2) ∘ fun q => (q, q)) =
      qs.map (fun q => q ^ 2) := rfl
  have e5 : qs.map ((fun p : ℚ × ℚ => p.2 ^ 2) ∘ fun q => (q, q)) =
      qs.map (fun q => q ^ 2) := rfl
  simp only [e1, e2, e3, e4, e5, or_self]
  simp only [pow_two]

lemma qs_sxx_nonneg (qs : List ℚ) :
    0 ≤ (qs.length : ℚ) * (qs.map (fun q => q ^ 2)).sum - qs.sum ^ 2 := by
  have h := pearson_sxx_nonneg (qs.map (fun q => (q, q)))
  rw [List.map_map, List.map_map, List.length_map] at h
  have e2 : qs.map (Prod.fst ∘ fun q : ℚ => (q, q)) = qs := by
    have hc : (Prod.fst ∘ fun q : ℚ => (q, q)) = id := rfl
    rw [hc, List.map_id]
  have e4 : qs.map ((fun p : ℚ × ℚ => p.1 ^ 2) ∘ fun q => (q, q)) =
      qs.map (fun q => q ^ 2) := rfl
  rw [e2, e4] at h
  exact h

lemma corrEntry_self {x : List PVal}
    (hfin : ∀ v ∈ x, v = PVal.nan ∨ ∃ q, v = PVal.fin q) :
    corrEntry x x =
      (if ((obsOf x).length : ℚ) * ((obsOf x).map (fun q => q ^ 2)).sum -
            (obsOf x).sum ^ 2 = 0 then none
       else some (((obsOf x).length : ℚ) * ((obsOf x).map (fun q => q ^ 2)).sum -
            (obsOf x).sum ^ 2,
         (((obsOf x).length : ℚ) * ((obsOf x).map (fun q => q ^ 2)).sum -
            (obsOf x).sum ^ 2) *
           (((obsOf x).length : ℚ) * ((obsOf x).map (fun q => q ^ 2)).sum -
            (obsOf x).sum ^ 2))) := by
  rw [corrEntry, mapM_finPair_diag hfin]
  exact pearsonQ_diag (obsOf x)

lemma corrOf_entry (r : RTable) (i j : ℕ) :
    CMatrix.entry (corrOf r) i j =
      (r.cols.get? i).bind (fun x => (r.cols.get? j).map (fun y => corrEntry x y)) := by
  rw [CMatrix.entry, corrOf, corrMatrix]
  rw [List.get?_eq_getElem?, List.get?_eq_getElem?, List.get?_eq_getElem?]
  cases hx : r.cols[i]? with
  | none => simp [List.getElem?_map, hx]
  | some x => simp [List.getElem?_map, hx, List.get?_eq_getElem?]

lemma corrEntry_some_pearson {xs ys : List PVal} {p : ℚ × ℚ}
    (h : corrEntry xs ys = some p) : ∃ L, pearsonQ L = some p := by
  rw [corrEntry] at h
  cases hM : (overlapP xs ys).mapM finPair with
  | none => rw [hM] at h; exact absurd h (by simp)
  | some L => rw [hM] at h; exact ⟨L, h⟩

/-- C6: for a returns table (defined values or missing) in which every pair of
columns has at least two overlapping valid observations, `returns.corr()` is
square (ticker × ticker), symmetric, its diagonal entries denote the real
value 1 except for zero-variance columns — whose defined observations are all
equal and which produce undefined entries — and every defined entry has a
positive denominator and denotes a real value in `[-1, 1]`. -/
theorem C6_corr_matrix_properties
    (r : RTable)
    (hWF : r.cols.length = r.names.length)
    (hfin : ∀ c ∈ r.cols, ∀ v ∈ c, v = PVal.nan ∨ ∃ q, v = PVal.fin q)
    (hobs : ∀ x ∈ r.cols, ∀ y ∈ r.cols, 2 ≤ (overlapP x y).length) :
    ((corrOf r).entries.length = (corrOf r).names.length ∧
      ∀ row ∈ (corrOf r).entries, row.length = (corrOf r).names.length) ∧
    (∀ i j, CMatrix.entry (corrOf r) i j = CMatrix.entry (corrOf r) j i) ∧
    (∀ i x, r.cols.get? i = some x →
      ((CMatrix.entry (corrOf r) i i = some none ↔
          ∀ a ∈ obsOf x, ∀ b ∈ obsOf x, a = b) ∧
        ∀ p : ℚ × ℚ, CMatrix.entry (corrOf r) i i = some (some p) →
          ((p.1 : ℝ) / Real.sqrt ((p.2 : ℚ) : ℝ)) = 1)) ∧
    (∀ i j : ℕ, ∀ p : ℚ × ℚ, CMatrix.entry (corrOf r) i j = some (some p) →
      0 < p.2 ∧ ((p.1 : ℝ) / Real.sqrt ((p.2 : ℚ) : ℝ)) ∈ Set.Icc (-1 : ℝ) 1) := by
  refine ⟨⟨?_, ?_⟩, ?_, ?_, ?_⟩
  · rw [corrOf, corrMatrix]
    simpa using hWF
  · intro row hrow
    rw [corrOf, corrMatrix] at hrow ⊢
    obtain ⟨x, _, rfl⟩ := List.mem_map.mp hrow
    simpa using hWF
  · intro i j
    rw [corrOf_entry, corrOf_entry]
    cases hx : r.cols.get? i with
    | none =>
      cases hy : r.cols.get? j with
      | none => rfl
      | some y => rfl
    | some x =>
      cases hy : r.cols.get? j with
      | none => rfl
      | some y =>
        show some (corrEntry x y) = some (corrEntry y x)
        rw [corrEntry_comm]
  · intro i x hx
    have hxmem : x ∈ r.cols := List.get?_mem hx
    have hentry : CMatrix.entry (corrOf r) i i = some (corrEntry x x) := by
      rw [corrOf_entry, hx]
      rfl
    have hself := corrEntry_self (hfin x hxmem)
    constructor
    · rw [hentry, hself]
      constructor
      · intro h
        split_ifs at h with hz
        · exact (sxx_zero_iff_const (obsOf x)).mp hz
        · exact absurd (Option.some_inj.mp h) (by simp)
      · intro h
        rw [if_pos ((sxx_zero_iff_const (obsOf x)).mpr h)]
    · intro p hp
      rw [hentry, hself] at hp
      split_ifs at hp with hz
      · exact absurd (Option.some_inj.mp hp) (by simp)
      · have hpv := Option.some_inj.mp (Option.some_inj.mp hp)
        have hS := lt_of_le_of_ne (qs_sxx_nonneg (obsOf x)) (Ne.symm hz)
        rw [← hpv]
        exact diag_val_one hS
  · intro i j p hp
    rw [corrOf_entry] at hp
    cases hx : r.cols.get? i with
    | none => rw [hx] at hp; exact absurd hp (by simp)
    | some x =>
      cases hy : r.cols.get? j with
      | none => rw [hx, hy] at hp; exact absurd hp (by simp)
      | some y =>
        rw [hx, hy] at hp
        have hp2 : some (corrEntry x y) = some (some p) := hp
        obtain ⟨L, hL⟩ := corrEntry_some_pearson (Option.some_inj.mp hp2)
        obtain ⟨hdpos, hnum⟩ := pearsonQ_den_pos_num_le hL
        exact ⟨hdpos, rval_mem_Icc hdpos hnum⟩

/-- Witness for C6: symmetry of a concrete 2×2 correlation matrix. -/
theorem C6_witness :
    CMatrix.entry (corrOf ⟨["A", "B"],
        [[PVal.fin 1, PVal.fin 2], [PVal.fin 2, PVal.fin 1]]⟩) 0 1 =
      CMatrix.entry (corrOf ⟨["A", "B"],
        [[PVal.fin 1, PVal.fin 2], [PVal.fin 2, PVal.fin 1]]⟩) 1 0 := by
  have h := C6_corr_matrix_properties
    ⟨["A", "B"], [[PVal.fin 1, PVal.fin 2], [PVal.fin 2, PVal.fin 1]]⟩
    (by decide)
    (by
      intro c hc v hv
      simp only [List.mem_cons, List.not_mem_nil, or_false] at hc
      rcases hc with rfl | rfl <;>
        (simp only [List.mem_cons, List.not_mem_nil, or_false] at hv
         rcases hv with rfl | rfl <;> exact Or.inr ⟨_, rfl⟩))
    (by decide)
  exact h.2.1 0 1

/-! ### Top pairs: order, shape, membership -/

/-- The signed square is monotone: comparing signed squares is comparing
the values. -/
lemma signedSq_le_iff {x y : ℝ} :
    (if 0 ≤ x then x ^ 2 else -x ^ 2) ≤ (if 0 ≤ y then y ^ 2 else -y ^ 2) ↔ x ≤ y := by
  rcases le_or_lt 0 x with hx | hx <;> rcases le_or_lt 0 y with hy | hy
  · rw [if_pos hx, if_pos hy]
    constructor
    · intro h
      nlinarith
    · intro h
      nlinarith
  · rw [if_pos hx, if_neg (not_le.mpr hy)]
    constructor
    · intro h
      nlinarith
    · intro h
      nlinarith
  · rw [if_neg (not_le.mpr hx), if_pos hy]
    constructor
    · intro h
      linarith
    · intro h
      nlinarith
  · rw [if_neg (not_le.mpr hx), if_neg (not_le.mpr hy)]
    constructor
    · intro h
      nlinarith
    · intro h
      nlinarith

lemma pairKey_cast (p : ℚ × ℚ) (hp : 0 < p.2) :
    ((pairKey p : ℚ) : ℝ) =
      (if 0 ≤ (p.1 : ℝ) / Real.sqrt (p.2 : ℝ) then ((p.1 : ℝ) / Real.sqrt (p.2 : ℝ)) ^ 2
       else -((p.1 : ℝ) / Real.sqrt (p.2 : ℝ)) ^ 2) := by
  have hpR : (0 : ℝ) < (p.2 : ℝ) := by exact_mod_cast hp
  have hs : 0 < Real.sqrt (p.2 : ℝ) := Real.sqrt_pos.mpr hpR
  have hsq : ((p.1 : ℝ) / Real.sqrt (p.2 : ℝ)) ^ 2 = (p.1 : ℝ) ^ 2 / (p.2 : ℝ) := by
    rw [div_pow, Real.sq_sqrt hpR.le]
  have hsgn : (0 ≤ (p.1 : ℝ) / Real.sqrt (p.2 : ℝ)) ↔ (0 ≤ p.1) := by
    rw [le_div_iff hs, zero_mul]
    exact ⟨fun h => by exact_mod_cast h, fun h => by exact_mod_cast h⟩
  rw [pairKey, apply_ite (fun q : ℚ => ((q : ℚ) : ℝ))]
  by_cases h1 : (0 : ℚ) ≤ p.1
  · rw [if_pos h1, if_pos (hsgn.mpr h1), hsq]
    push_cast
    rfl
  · rw [if_neg h1, if_neg (fun hc => h1 (hsgn.mp hc)), hsq]
    push_cast
    rfl

/-- For entries with positive denominators, the rational sort key orders
exactly as the real correlation values. -/
lemma pairKey_le_iff {p q : ℚ × ℚ} (hp : 0 < p.2) (hq : 0 < q.2) :
    (pairKey p ≤ pairKey q ↔
      (p.1 : ℝ) / Real.sqrt (p.2 : ℝ) ≤ (q.1 : ℝ) / Real.sqrt (q.2 : ℝ)) := by
  rw [show (pairKey p ≤ pairKey q) ↔ (((pairKey p : ℚ) : ℝ) ≤ ((pairKey q : ℚ) : ℝ)) from
    Iff.symm Rat.cast_le]
  rw [pairKey_cast p hp, pairKey_cast q hq]
  exact signedSq_le_iff

lemma mem_stackUpper {m : CMatrix} {e : String × String × (ℚ × ℚ)}
    (h : e ∈ stackUpper m) :
    ∃ i j, i < j ∧ j < m.entries.length ∧
      m.names.getD i "" = e.1 ∧ m.names.getD j "" = e.2.1 ∧
      CMatrix.entry m i j = some (some e.2.2) := by
  rw [stackUpper] at h
  obtain ⟨i, hi, h⟩ := List.mem_flatMap.mp h
  obtain ⟨j, hj, h⟩ := List.mem_flatMap.mp h
  rw [List.mem_range] at hi hj
  by_cases hij : i < j
  · rw [if_pos hij] at h
    cases hent : (m.entries.get? i).bind (fun row => row.get? j) with
    | none =>
      rw [hent] at h
      simp at h
    | some o =>
      cases o with
      | none =>
        rw [hent] at h
        simp at h
      | some v =>
        rw [hent] at h
        simp only [List.mem_singleton] at h
        subst h
        exact ⟨i, j, hij, hj, rfl, rfl, hent⟩
  · rw [if_neg hij] at h
    simp at h

/-- Defined entries of a correlation matrix built by `corrOf` have positive
denominator. -/
lemma corrOf_entry_den_pos {r : RTable} {i j : ℕ} {p : ℚ × ℚ}
    (h : CMatrix.entry (corrOf r) i j = some (some p)) : 0 < p.2 := by
  rw [corrOf_entry] at h
  cases hx : r.cols.get? i with
  | none =>
    rw [hx] at h
    exact absurd h (by simp)
  | some x =>
    cases hy : r.cols.get? j with
    | none =>
      rw [hx, hy] at h
      exact absurd h (by simp)
    | some y =>
      rw [hx, hy] at h
      have h2 : some (corrEntry x y) = some (some p) := h
      obtain ⟨L, hL⟩ := corrEntry_some_pearson (Option.some_inj.mp h2)
      exact (pearsonQ_den_pos_num_le hL).1

/-- C2: for every non-empty correlation matrix the top-pairs report lists only
strictly-upper-triangular pairs — never a self-pair and never both (X,Y) and
(Y,X) — sorted descending by the real correlation value, and has at most five
entries (exactly `min 5` of the number of defined unique pairs). -/
theorem C2_top_pairs (r : RTable) (hWF : r.cols.length = r.names.length)
    (hnd : r.names.Nodup) (hne : (corrOf r).isEmpty = false) :
    (topPairs (corrOf r)).length ≤ 5 ∧
    (topPairs (corrOf r)).length = min 5 (stackUpper (corrOf r)).length ∧
    (∀ e ∈ topPairs (corrOf r), ∃ i j, i < j ∧
      r.names.get? i = some e.1 ∧ r.names.get? j = some e.2.1 ∧
      CMatrix.entry (corrOf r) i j = some (some e.2.2)) ∧
    (∀ e ∈ topPairs (corrOf r), e.1 ≠ e.2.1) ∧
    (∀ e ∈ topPairs (corrOf r), ∀ e2 ∈ topPairs (corrOf r),
      ¬(e.1 = e2.2.1 ∧ e.2.1 = e2.1)) ∧
    List.Pairwise (fun e1 e2 : String × String × (ℚ × ℚ) =>
      (e2.2.2.1 : ℝ) / Real.sqrt ((e2.2.2.2 : ℚ) : ℝ) ≤
        (e1.2.2.1 : ℝ) / Real.sqrt ((e1.2.2.2 : ℚ) : ℝ)) (topPairs (corrOf r)) := by
  have hlen : (corrOf r).entries.length = r.names.length := by
    rw [corrOf, corrMatrix]
    simpa using hWF
  have hmemS : ∀ e ∈ topPairs (corrOf r), e ∈ stackUpper (corrOf r) := by
    intro e he
    have h1 : e ∈ List.insertionSort entryDesc (stackUpper (corrOf r)) :=
      List.take_subset 5 _ he
    exact (List.perm_insertionSort entryDesc (stackUpper (corrOf r))).subset h1
  have hmem : ∀ e ∈ topPairs (corrOf r), ∃ i j, i < j ∧
      r.names.get? i = some e.1 ∧ r.names.get? j = some e.2.1 ∧
      CMatrix.entry (corrOf r) i j = some (some e.2.2) := by
    intro e he
    obtain ⟨i, j, hij, hjlen, hni, hnj, hent⟩ := mem_stackUpper (hmemS e he)
    rw [hlen] at hjlen
    have hilen : i < r.names.length := lt_trans hij hjlen
    have hni2 : r.names.getD i "" = e.1 := hni
    have hnj2 : r.names.getD j "" = e.2.1 := hnj
    refine ⟨i, j, hij, ?_, ?_, hent⟩
    · rw [List.get?_eq_getElem?, List.getElem?_eq_getElem hilen, ← hni2,
        List.getD_eq_getElem r.names "" hilen]
    · rw [List.get?_eq_getElem?, List.getElem?_eq_getElem hjlen, ← hnj2,
        List.getD_eq_getElem r.names "" hjlen]
  have hinj : ∀ {i j : ℕ} {v : String}, r.names.get? i = some v →
      r.names.get? j = some v → i = j := by
    intro i j v hi hj
    have hilen : i < r.names.length := by
      rw [List.get?_eq_getElem?] at hi
      exact (List.getElem?_eq_some.mp hi).1
    apply List.getElem?_inj hilen hnd
    rw [List.get?_eq_getElem?] at hi hj
    rw [hi, hj]
  refine ⟨?_, ?_, hmem, ?_, ?_, ?_⟩
  · rw [topPairs, List.length_take]
    exact min_le_left 5 _
  · rw [topPairs, List.length_take,
      (List.perm_insertionSort entryDesc (stackUpper (corrOf r))).length_eq]
  · intro e he heq
    obtain ⟨i, j, hij, hni, hnj, _⟩ := hmem e he
    rw [heq] at hni
    exact absurd (hinj hni hnj) (Nat.ne_of_lt hij)
  · intro e he e2 he2 ⟨h1, h2⟩
    obtain ⟨i, j, hij, hni, hnj, _⟩ := hmem e he
    obtain ⟨i2, j2, hij2, hni2, hnj2, _⟩ := hmem e2 he2
    rw [h1] at hni
    rw [← h2] at hni2
    have e1 : i = j2 := hinj hni hnj2
    have e2' : i2 = j := hinj hni2 hnj
    omega
  · have hsorted : List.Pairwise entryDesc (topPairs (corrOf r)) :=
      List.Pairwise.sublist (List.take_sublist 5 _)
        (List.sorted_insertionSort entryDesc (stackUpper (corrOf r)))
    apply List.Pairwise.imp_of_mem ?_ hsorted
    intro a b ha hb hab
    obtain ⟨_, _, _, _, _, henta⟩ := hmem a ha
    obtain ⟨_, _, _, _, _, hentb⟩ := hmem b hb
    have hda := corrOf_entry_den_pos henta
    have hdb := corrOf_entry_den_pos hentb
    exact (pairKey_le_iff hdb hda).mp hab

/-- Witness for C2 on a concrete 2-ticker returns table. -/
theorem C2_witness :
    (topPairs (corrOf ⟨["A", "B"],
        [[PVal.fin 1, PVal.fin 2], [PVal.fin 2, PVal.fin 4]]⟩)).length ≤ 5 ∧
    ∀ e ∈ topPairs (corrOf ⟨["A", "B"],
        [[PVal.fin 1, PVal.fin 2], [PVal.fin 2, PVal.fin 4]]⟩), e.1 ≠ e.2.1 := by
  have h := C2_top_pairs ⟨["A", "B"], [[PVal.fin 1, PVal.fin 2], [PVal.fin 2, PVal.fin 4]]⟩
    (by decide) (by decide) (by decide)
  exact ⟨h.1, h.2.2.2.1⟩

/-! ### The cleaner -/

lemma zip_fst_snd {α β : Type} (l : List (α × β)) :
    (l.map Prod.fst).zip (l.map Prod.snd) = l := by
  rw [List.zip_map']
  have h : (fun a : α × β => (a.1, a.2)) = id := rfl
  rw [h, List.map_id]

/-- C4: the cleaner removes exactly the price-table columns with zero
non-missing observations (the printed `dropped` list holds exactly the names
of such columns), it leaves the date index untouched and keeps the surviving
columns' data unchanged and in order; and whatever table the pipeline ends up
using, the returns table and correlation matrix used afterwards are the ones
recomputed from it — with the cleaned table in use whenever the column set
changed. -/
theorem C4_cleaner_and_recompute (fetched : PTable) :
    (cleanCols fetched).dates = fetched.dates ∧
    ((cleanCols fetched).names.zip (cleanCols fetched).cols =
      (fetched.names.zip fetched.cols).filter (fun p => !colAllNone p.2)) ∧
    (∀ name, name ∈ droppedNames fetched ↔
      ∃ p ∈ fetched.names.zip fetched.cols, p.1 = name ∧ colAllNone p.2 = true) ∧
    (∀ providerOk tickers saveCsv ts outdir pr,
      (runMain providerOk tickers fetched saveCsv ts outdir).pricesUsed = some pr →
      (runMain providerOk tickers fetched saveCsv ts outdir).returnsUsed =
          some (returnsOf pr) ∧
        (runMain providerOk tickers fetched saveCsv ts outdir).corrUsed =
          some (corrOf (returnsOf pr)) ∧
        ((cleanCols fetched).names.length ≠ fetched.names.length →
          pr = cleanCols fetched) ∧
        (runMain providerOk tickers fetched saveCsv ts outdir).dropped =
          (if (cleanCols fetched).names.length ≠ fetched.names.length
           then droppedNames fetched else [])) := by
  refine ⟨rfl, ?_, ?_, ?_⟩
  · rw [cleanCols]
    exact zip_fst_snd _
  · intro name
    rw [droppedNames]
    rw [(List.perm_insertionSort (fun a b : String => a ≤ b) _).mem_iff]
    constructor
    · intro h
      obtain ⟨p, hp, hpn⟩ := List.mem_map.mp h
      obtain ⟨hpz, hpc⟩ := List.mem_filter.mp hp
      exact ⟨p, hpz, hpn, hpc⟩
    · intro ⟨p, hpz, hpn, hpc⟩
      exact List.mem_map.mpr ⟨p, List.mem_filter.mpr ⟨hpz, hpc⟩, hpn⟩
  · intro providerOk tickers saveCsv ts outdir pr hpr
    by_cases hT : tickers = []
    · rw [runMain, if_pos (by simp [hT])] at hpr
      exact absurd hpr (by simp)
    cases providerOk with
    | false =>
      rw [runMain, if_neg (by simpa using hT)] at hpr
      exact absurd hpr (by simp)
    | true =>
      by_cases hF : fetched.isEmpty = true
      · rw [runMain, if_neg (by simpa using hT)] at hpr
        simp only [Bool.not_true, Bool.false_eq_true, if_false, hF, if_true] at hpr
        exact absurd hpr (by simp)
      · have hcore := @runMain_eq_core true tickers fetched saveCsv ts outdir
          hT rfl (by simpa using hF)
        rw [hcore, runMainCore_pricesUsed] at hpr
        have hpr' : pr = pricesAfterClean fetched := (Option.some_inj.mp hpr).symm
        subst hpr'
        refine ⟨?_, ?_, ?_, ?_⟩
        · rw [hcore, runMainCore_returnsUsed]
        · rw [hcore, runMainCore_corrUsed]
        · intro hchanged
          rw [pricesAfterClean, if_pos hchanged]
        · rw [hcore, runMainCore_dropped]

/-- Witness for C4 on a table with one all-missing column. -/
theorem C4_witness :
    (cleanCols ⟨["A", "B"], ["d1", "d2"],
        [[some 1, some 2], [none, none]]⟩).dates = ["d1", "d2"] ∧
    ("B" ∈ droppedNames ⟨["A", "B"], ["d1", "d2"],
        [[some 1, some 2], [none, none]]⟩ ↔
      ∃ p ∈ (["A", "B"].zip [[some (1:ℚ), some 2], [none, none]]),
        p.1 = "B" ∧ colAllNone p.2 = true) ∧
    (runMain true ["A", "B"] ⟨["A", "B"], ["d1", "d2"],
        [[some 1, some 2], [none, none]]⟩ false "" "").corrUsed =
      some (corrOf (returnsOf (pricesAfterClean ⟨["A", "B"], ["d1", "d2"],
        [[some 1, some 2], [none, none]]⟩))) := by
  have h := C4_cleaner_and_recompute
    ⟨["A", "B"], ["d1", "d2"], [[some 1, some 2], [none, none]]⟩
  have hpr : (runMain true ["A", "B"] ⟨["A", "B"], ["d1", "d2"],
      [[some 1, some 2], [none, none]]⟩ false "" "").pricesUsed =
      some (pricesAfterClean ⟨["A", "B"], ["d1", "d2"],
        [[some 1, some 2], [none, none]]⟩) := by
    rw [runMain_eq_core (by simp) rfl (by decide), runMainCore_pricesUsed]
  exact ⟨h.1, h.2.2.1 "B", (h.2.2.2 true ["A", "B"] false "" "" _ hpr).2.1⟩

/-! ### CSV export -/

/-- Counterexample to C5: with one all-missing column `B` and `--save-csv`,
the written CSV is the pre-cleaning table — its header still carries `B` —
while the column-reduced table in use afterwards has dropped `B`.  The CSV
therefore does NOT reflect the columns dropped by the cleaner. -/
theorem C5_counterexample :
    (runMain true ["A", "B"] ⟨["A", "B"], ["d1", "d2"],
        [[some 1, some 2], [none, none]]⟩ true "TS" "out").csv =
      some ("out/prices_TS_A_B_adj_close.csv",
        csvOf ⟨["A", "B"], ["d1", "d2"], [[some 1, some 2], [none, none]]⟩) ∧
    (runMain true ["A", "B"] ⟨["A", "B"], ["d1", "d2"],
        [[some 1, some 2], [none, none]]⟩ true "TS" "out").pricesUsed =
      some (cleanCols ⟨["A", "B"], ["d1", "d2"], [[some 1, some 2], [none, none]]⟩) ∧
    "B" ∈ (csvOf ⟨["A", "B"], ["d1", "d2"],
        [[some (1:ℚ), some 2], [none, none]]⟩).header ∧
    "B" ∉ (cleanCols ⟨["A", "B"], ["d1", "d2"],
        [[some (1:ℚ), some 2], [none, none]]⟩).names := by
  have hcore := @runMain_eq_core true ["A", "B"]
    ⟨["A", "B"], ["d1", "d2"], [[some 1, some 2], [none, none]]⟩
    true "TS" "out" (by simp) rfl (by decide)
  refine ⟨?_, ?_, by decide, by decide⟩
  · rw [hcore, runMainCore_csv]
    rfl
  · rw [hcore, runMainCore_pricesUsed, pricesAfterClean, if_pos (by decide)]

/-- C5 as amended: when CSV export is requested and the pipeline gets past
the early exits, the table written to
`<outdir>/prices_<ts>_<first-5-tickers-joined-by-underscore><"_more" if more
than 5 tickers>_adj_close.csv` is the price table **as fetched, before the
cleaner runs** (it does not reflect columns the cleaner drops), with the date
column labeled "Date". -/
theorem C5_csv_amended (providerOk : Bool) (tickers : List String) (fetched : PTable)
    (ts outdir : String)
    (hT : tickers ≠ []) (hP : providerOk = true) (hF : fetched.isEmpty = false) :
    (runMain providerOk tickers fetched true ts outdir).csv =
      some (pathJoin outdir (csvFileName ts tickers), csvOf fetched) ∧
    (csvOf fetched).header = "Date" :: fetched.names ∧
    csvFileName ts tickers =
      "prices_" ++ ts ++ "_" ++
        (String.intercalate "_" (tickers.take 5) ++
          (if tickers.length > 5 then "_more" else "")) ++ "_adj_close.csv" := by
  refine ⟨?_, rfl, rfl⟩
  rw [runMain_eq_core hT hP hF, runMainCore_csv, if_pos rfl]

/-- Witness for C5's amended statement on a concrete run. -/
theorem C5_witness :
    (runMain true ["A"] ⟨["A"], ["d1"], [[some 3]]⟩ true "TS" "out").csv =
      some (pathJoin "out" (csvFileName "TS" ["A"]),
        csvOf ⟨["A"], ["d1"], [[some 3]]⟩) ∧
    (csvOf (⟨["A"], ["d1"], [[some (3:ℚ)]]⟩ : PTable)).header = "Date" :: ["A"] := by
  have h := C5_csv_amended true ["A"] ⟨["A"], ["d1"], [[some 3]]⟩ "TS" "out"
    (by simp) rfl (by decide)
  exact ⟨h.1, h.2.1⟩

/-! ### Normalization -/

lemma firstNonNan_cons_nan (c : List PVal) :
    firstNonNan (PVal.nan :: c) = firstNonNan c := by
  simp [firstNonNan, List.find?_cons]

lemma firstNonNan_cons_ne {v : PVal} (h : v ≠ PVal.nan) (c : List PVal) :
    firstNonNan (v :: c) = some v := by
  simp [firstNonNan, List.find?_cons, h]

lemma maskKeep_cons (k : Bool) (ks : List Bool) (v : PVal) (vs : List PVal) :
    maskKeep (k :: ks) (v :: vs) =
      (if k then v :: maskKeep ks vs else maskKeep ks vs) := by
  rw [maskKeep, List.zip_cons_cons, List.filter_cons]
  cases k with
  | true => simp [maskKeep]
  | false => simp [maskKeep]

lemma firstNonNan_maskKeep : ∀ {keep : List Bool} {c : List PVal},
    (∀ t v, c.get? t = some v → v ≠ PVal.nan → keep.get? t = some true) →
    keep.length = c.length →
    firstNonNan (maskKeep keep c) = firstNonNan c := by
  intro keep
  induction keep with
  | nil =>
    intro c _ hlen
    have hc : c = [] := List.eq_nil_of_length_eq_zero hlen.symm
    subst hc
    rfl
  | cons k ks ih =>
    intro c h hlen
    cases c with
    | nil => rfl
    | cons v vs =>
      rw [maskKeep_cons]
      have hlen2 : ks.length = vs.length := by simpa using hlen
      have h2 : ∀ t w, vs.get? t = some w → w ≠ PVal.nan → ks.get? t = some true :=
        fun t w hw hne => h (t + 1) w (by simpa using hw) hne
      cases k with
      | true =>
        rw [if_pos rfl]
        by_cases hv : v = PVal.nan
        · subst hv
          rw [firstNonNan_cons_nan, firstNonNan_cons_nan]
          exact ih h2 hlen2
        · rw [firstNonNan_cons_ne hv, firstNonNan_cons_ne hv]
      | false =>
        have hv : v = PVal.nan := by
          by_contra hv
          have hk := h 0 v rfl hv
          simp at hk
        subst hv
        rw [if_neg (by simp), firstNonNan_cons_nan]
        exact ih h2 hlen2

lemma find?_isSome_of_findSome? : ∀ {c : Col} {b : ℚ}, c.findSome? id = some b →
    c.find? (fun x => x.isSome) = some (some b) := by
  intro c
  induction c with
  | nil => intro b h; simp at h
  | cons x rest ih =>
    intro b h
    cases x with
    | none =>
      rw [List.findSome?_cons] at h
      rw [List.find?_cons]
      simpa using ih (by simpa using h)
    | some a =>
      rw [List.findSome?_cons] at h
      simp only [id, Option.some_inj] at h
      rw [List.find?_cons]
      simp [h]

lemma replaceInfNan_ne_inf (v : PVal) :
    replaceInfNan v ≠ PVal.pinf ∧ replaceInfNan v ≠ PVal.ninf := by
  cases v <;> simp [replaceInfNan]

lemma normalizeCol_cells {c : Col} {b : ℚ} (hb : firstVal c = some b) (hb0 : b ≠ 0) :
    ∀ v ∈ normalizeCol c, v = PVal.nan ∨ ∃ q, v = PVal.fin q := by
  intro v hv
  rw [normalizeCol, hb] at hv
  obtain ⟨x, _, rfl⟩ := List.mem_map.mp hv
  cases x with
  | none => exact Or.inl rfl
  | some a =>
    right
    refine ⟨a / b, ?_⟩
    show divVal a b = PVal.fin (a / b)
    rw [divVal, if_neg hb0]

lemma firstNonNan_normalizeCol {c : Col} {b : ℚ} (hb : firstVal c = some b)
    (hb0 : b ≠ 0) : firstNonNan (normalizeCol c) = some (PVal.fin 1) := by
  rw [normalizeCol, hb, firstNonNan, List.find?_map]
  have hfun : ((fun v => decide (v ≠ PVal.nan)) ∘ fun x : Option ℚ =>
      match x with
      | none => PVal.nan
      | some a => divVal a b) = (fun x : Option ℚ => x.isSome) := by
    funext x
    cases x with
    | none => simp
    | some a =>
      show decide (divVal a b ≠ PVal.nan) = Option.isSome (some a)
      rw [divVal, if_neg hb0]
      simp
  rw [hfun, find?_isSome_of_findSome? hb]
  simp only [Option.map_some']
  show some (divVal b b) = some (PVal.fin 1)
  rw [divVal, if_neg hb0, div_self hb0]

lemma normalizeCol_length (c : Col) : (normalizeCol c).length = c.length := by
  rw [normalizeCol]
  cases firstVal c <;> simp

lemma normalizeCol_get? {c : Col} {b : ℚ} (hb : firstVal c = some b) {i : ℕ} {a : ℚ}
    (hi : c.get? i = some (some a)) : (normalizeCol c).get? i = some (divVal a b) := by
  rw [normalizeCol, hb, List.get?_eq_getElem?, List.getElem?_map]
  rw [List.get?_eq_getElem?] at hi
  rw [hi]
  rfl

lemma normalizePipeline_survivor {t : PTable}
    (hWF : ∀ c ∈ t.cols, c.length = t.nrows)
    {name : String} {c : Col} (hp : (name, c) ∈ t.names.zip t.cols)
    {b : ℚ} (hb : firstVal c = some b) (hb0 : b ≠ 0) :
    ∃ j cN, (normalizePipeline t).names.get? j = some name ∧
      (normalizePipeline t).cols.get? j = some cN ∧
      firstNonNan cN = some (PVal.fin 1) := by
  have hfnn := firstNonNan_normalizeCol hb hb0
  have hmem1 : PVal.fin 1 ∈ normalizeCol c := List.mem_of_find?_eq_some hfnn
  have hclen : c.length = t.nrows := hWF c (List.of_mem_zip hp).2
  have hzip : (name, normalizeCol c) ∈ t.names.zip (t.cols.map normalizeCol) := by
    rw [List.zip_map_right]
    exact List.mem_map.mpr ⟨(name, c), hp, rfl⟩
  have hnotall : colAllNanP (normalizeCol c) = false := by
    rw [colAllNanP]
    apply List.all_eq_false.mpr
    exact ⟨PVal.fin 1, hmem1, by simp⟩
  have hkept : (name, normalizeCol c) ∈
      (t.names.zip (t.cols.map normalizeCol)).filter (fun p => !colAllNanP p.2) :=
    List.mem_filter.mpr ⟨hzip, by rw [hnotall]; rfl⟩
  obtain ⟨j, hj⟩ := List.mem_iff_get?.mp hkept
  set kept := (t.names.zip (t.cols.map normalizeCol)).filter (fun p => !colAllNanP p.2)
    with hkeptdef
  set cols1 := kept.map Prod.snd with hcols1
  set keep := (List.range t.nrows).map (fun t0 => !rowAllNanAt cols1 t0) with hkeep
  have hnc1 : normalizeCol c ∈ cols1 :=
    List.mem_map.mpr ⟨(name, normalizeCol c), hkept, rfl⟩
  have hkeeplen : keep.length = (normalizeCol c).length := by
    rw [hkeep, List.length_map, List.length_range, normalizeCol_length, hclen]
  have hcov : ∀ t0 v, (normalizeCol c).get? t0 = some v → v ≠ PVal.nan →
      keep.get? t0 = some true := by
    intro t0 v hv hvne
    have ht0 : t0 < t.nrows := by
      rw [List.get?_eq_getElem?] at hv
      have := (List.getElem?_eq_some.mp hv).1
      rw [normalizeCol_length, hclen] at this
      exact this
    rw [hkeep, List.get?_eq_getElem?, List.getElem?_map, List.getElem?_range ht0]
    simp only [Option.map_some', Option.some_inj]
    have hrow : rowAllNanAt cols1 t0 = false := by
      rw [rowAllNanAt]
      apply List.all_eq_false.mpr
      refine ⟨normalizeCol c, hnc1, ?_⟩
      rw [List.get?_eq_getElem?] at hv
      simp [hv, hvne]
    rw [hrow]
    rfl
  have hcells := normalizeCol_cells hb hb0
  refine ⟨j, (maskKeep keep (normalizeCol c)).map replaceInfNan, ?_, ?_, ?_⟩
  · show (kept.map Prod.fst).get? j = some name
    rw [List.get?_eq_getElem?, List.getElem?_map]
    rw [List.get?_eq_getElem?] at hj
    rw [hj]
    rfl
  · show ((dropAllNanRows t.nrows cols1).map (List.map replaceInfNan)).get? j =
      some ((maskKeep keep (normalizeCol c)).map replaceInfNan)
    rw [dropAllNanRows, ← hkeep, hcols1]
    rw [List.get?_eq_getElem?, List.getElem?_map, List.getElem?_map, List.getElem?_map]
    rw [List.get?_eq_getElem?] at hj
    rw [hj]
    rfl
  · have hid : (maskKeep keep (normalizeCol c)).map replaceInfNan =
        maskKeep keep (normalizeCol c) := by
      have hcongr : ∀ v ∈ maskKeep keep (normalizeCol c), replaceInfNan v = v := by
        intro v hv
        rcases hcells v (mem_maskKeep_orig hv) with hv1 | ⟨q, hv1⟩ <;>
          (subst hv1; rfl)
      calc (maskKeep keep (normalizeCol c)).map replaceInfNan
          = (maskKeep keep (normalizeCol c)).map id := List.map_congr_left hcongr
        _ = _ := List.map_id _
    rw [hid, firstNonNan_maskKeep hcov hkeeplen, hfnn]

lemma normalizePipeline_no_inf (t : PTable) :
    ∀ c ∈ (normalizePipeline t).cols, PVal.pinf ∉ c ∧ PVal.ninf ∉ c := by
  intro c hc
  rw [normalizePipeline] at hc
  obtain ⟨y, _, rfl⟩ := List.mem_map.mp hc
  constructor
  · intro hmem
    obtain ⟨v, _, hv⟩ := List.mem_map.mp hmem
    exact (replaceInfNan_ne_inf v).1 hv
  · intro hmem
    obtain ⟨v, _, hv⟩ := List.mem_map.mp hmem
    exact (replaceInfNan_ne_inf v).2 hv

lemma runMainCore_norm_skip (tickers : List String) (fetched : PTable) (saveCsv : Bool)
    (ts outdir : String)
    (h1 : (pricesAfterClean fetched).isEmpty = false)
    (h2 : hasAnyNotNan (normalizePipeline (pricesAfterClean fetched)) = false) :
    (runMainCore tickers fetched saveCsv ts outdir).normChart = false ∧
    "No finite numeric data to plot after normalization; skipping normalized chart." ∈
      (runMainCore tickers fetched saveCsv ts outdir).msgs ∧
    ((runMainCore tickers fetched saveCsv ts outdir).outcome = Outcome.emptyCorr ∨
      (runMainCore tickers fetched saveCsv ts outdir).outcome = Outcome.done) := by
  by_cases hc : (cleanCols fetched).names.length ≠ fetched.names.length <;>
    (simp only [pricesAfterClean, hc, if_true, if_false, ite_true, ite_false] at h1 h2
     simp only [runMainCore, hc, if_true, if_false, ite_true, ite_false]
     split_ifs <;> simp_all)

/-- Counterexample to C3: a price column whose first non-missing value is 0
survives normalization (column `A` is kept by the column-drop step, because
`5/0 = inf` is not NaN there), yet after the infinity conversion it contains
no defined observation at all — in particular its first observation is not
1.0.  The claim's "the first observation of every surviving column equals
1.0" fails on the code. -/
theorem C3_counterexample :
    normalizePipeline ⟨["A", "B"], ["d1", "d2"],
        [[some 0, some 5], [some 10, some 20]]⟩ =
      ⟨["A", "B"], [[PVal.nan, PVal.nan], [PVal.fin 1, PVal.fin 2]]⟩ ∧
    "A" ∈ (normalizePipeline ⟨["A", "B"], ["d1", "d2"],
        [[some 0, some 5], [some 10, some 20]]⟩).names ∧
    (normalizePipeline ⟨["A", "B"], ["d1", "d2"],
        [[some 0, some 5], [some 10, some 20]]⟩).cols.get? 0 =
      some [PVal.nan, PVal.nan] ∧
    PVal.fin 1 ∉ [PVal.nan, PVal.nan] := by
  have h : normalizePipeline ⟨["A", "B"], ["d1", "d2"],
      [[some 0, some 5], [some 10, some 20]]⟩ =
      ⟨["A", "B"], [[PVal.nan, PVal.nan], [PVal.fin 1, PVal.fin 2]]⟩ := by
    rw [normalizePipeline]
    norm_num [normalizeCol, firstVal, divVal, colAllNanP, dropAllNanRows, rowAllNanAt,
      maskKeep, replaceInfNan, PTable.nrows, List.range_succ]
    simp [maskKeep, replaceInfNan]
  refine ⟨h, ?_, ?_, by decide⟩
  · rw [h]
    simp
  · rw [h]
    rfl

/-- C3 as amended: normalization divides every value of each surviving price
column by that column's own first non-missing value (per-column divisor); in
order, all-NaN normalized columns are dropped, then all-NaN date rows, then
infinities become NaN (no infinity survives); the first defined observation
of every surviving column equals 1.0 **provided that column's first
non-missing price is nonzero** (a zero first price instead yields a surviving
column of NaNs, as the counterexample shows); and when no finite value
remains, the normalized chart is skipped with a log message while the
pipeline continues to the heatmap stage. -/
theorem C3_normalization_amended (t : PTable)
    (hWF : ∀ c ∈ t.cols, c.length = t.nrows) :
    (∀ c ∈ t.cols, ∀ b : ℚ, firstVal c = some b → ∀ i : ℕ, ∀ a : ℚ,
      c.get? i = some (some a) → (normalizeCol c).get? i = some (divVal a b)) ∧
    ((normalizePipeline t).names =
      ((t.names.zip (t.cols.map normalizeCol)).filter
        (fun p => !colAllNanP p.2)).map Prod.fst) ∧
    (∀ p ∈ t.names.zip t.cols, ∀ b : ℚ, firstVal p.2 = some b → b ≠ 0 →
      ∃ j cN, (normalizePipeline t).names.get? j = some p.1 ∧
        (normalizePipeline t).cols.get? j = some cN ∧
        firstNonNan cN = some (PVal.fin 1)) ∧
    (∀ c ∈ (normalizePipeline t).cols, PVal.pinf ∉ c ∧ PVal.ninf ∉ c) ∧
    (∀ tickers fetched saveCsv ts outdir,
      (pricesAfterClean fetched).isEmpty = false →
      hasAnyNotNan (normalizePipeline (pricesAfterClean fetched)) = false →
      (runMainCore tickers fetched saveCsv ts outdir).normChart = false ∧
      "No finite numeric data to plot after normalization; skipping normalized chart." ∈
        (runMainCore tickers fetched saveCsv ts outdir).msgs ∧
      ((runMainCore tickers fetched saveCsv ts outdir).outcome = Outcome.emptyCorr ∨
        (runMainCore tickers fetched saveCsv ts outdir).outcome = Outcome.done)) := by
  refine ⟨?_, rfl, ?_, normalizePipeline_no_inf t, ?_⟩
  · intro c _ b hb i a hi
    exact normalizeCol_get? hb hi
  · intro p hp b hb hb0
    obtain ⟨name, c⟩ := p
    exact normalizePipeline_survivor hWF hp hb hb0
  · intro tickers fetched saveCsv ts outdir h1 h2
    exact runMainCore_norm_skip tickers fetched saveCsv ts outdir h1 h2

/-- Witness for the amended C3 on a concrete one-column table. -/
theorem C3_witness :
    ∃ j cN,
      (normalizePipeline ⟨["A"], ["d1", "d2"],
        [[some 2, some 4]]⟩).names.get? j = some "A" ∧
      (normalizePipeline ⟨["A"], ["d1", "d2"],
        [[some 2, some 4]]⟩).cols.get? j = some cN ∧
      firstNonNan cN = some (PVal.fin 1) := by
  have h := C3_normalization_amended ⟨["A"], ["d1", "d2"], [[some 2, some 4]]⟩ (by decide)
  exact h.2.2.1 ("A", [some 2, some 4]) (by decide) 2 rfl (by norm_num)

/-! ### Exit behavior -/

lemma runMainCore_outcome_cases (tickers : List String) (fetched : PTable)
    (saveCsv : Bool) (ts outdir : String) :
    (runMainCore tickers fetched saveCsv ts outdir).outcome = Outcome.emptyAfterClean ∨
    (runMainCore tickers fetched saveCsv ts outdir).outcome = Outcome.emptyCorr ∨
    (runMainCore tickers fetched saveCsv ts outdir).outcome = Outcome.done := by
  rw [runMainCore_outcome]
  split_ifs <;> simp

lemma runMainCore_msg_clean (tickers : List String) (fetched : PTable)
    (saveCsv : Bool) (ts outdir : String) :
    (runMainCore tickers fetched saveCsv ts outdir).outcome = Outcome.emptyAfterClean →
      "No price data available after dropping empty columns; skipping plots." ∈
        (runMainCore tickers fetched saveCsv ts outdir).msgs := by
  by_cases hc : (cleanCols fetched).names.length ≠ fetched.names.length <;>
    (simp only [runMainCore, hc, if_true, if_false, ite_true, ite_false]
     split_ifs <;> simp)

lemma runMainCore_msg_corr (tickers : List String) (fetched : PTable)
    (saveCsv : Bool) (ts outdir : String) :
    (runMainCore tickers fetched saveCsv ts outdir).outcome = Outcome.emptyCorr →
      "Correlation matrix is empty; skipping heatmap and pair listing." ∈
        (runMainCore tickers fetched saveCsv ts outdir).msgs := by
  by_cases hc : (cleanCols fetched).names.length ≠ fetched.names.length <;>
    (simp only [runMainCore, hc, if_true, if_false, ite_true, ite_false]
     split_ifs <;> simp)

/-- C7: every "nothing to do" condition — no tickers, no data from the
provider, no columns after cleaning, empty correlation matrix — ends the run
with its explanatory message and a non-fatal outcome; the only fatal outcome
is the missing yfinance import, which occurs exactly when tickers were
resolved but the provider import fails. -/
theorem C7_exit_behavior (providerOk : Bool) (tickers : List String) (fetched : PTable)
    (saveCsv : Bool) (ts outdir : String) :
    ((runMain providerOk tickers fetched saveCsv ts outdir).outcome = Outcome.noTickers ↔
      tickers = []) ∧
    ((runMain providerOk tickers fetched saveCsv ts outdir).outcome = Outcome.fatalNoProvider ↔
      (tickers ≠ [] ∧ providerOk = false)) ∧
    ((runMain providerOk tickers fetched saveCsv ts outdir).outcome = Outcome.noData ↔
      (tickers ≠ [] ∧ providerOk = true ∧ fetched.isEmpty = true)) ∧
    ((runMain providerOk tickers fetched saveCsv ts outdir).outcome = Outcome.noTickers →
      "No tickers specified; exiting." ∈
        (runMain providerOk tickers fetched saveCsv ts outdir).msgs) ∧
    ((runMain providerOk tickers fetched saveCsv ts outdir).outcome = Outcome.noData →
      "No data returned for the requested tickers/date range; exiting." ∈
        (runMain providerOk tickers fetched saveCsv ts outdir).msgs) ∧
    ((runMain providerOk tickers fetched saveCsv ts outdir).outcome = Outcome.emptyAfterClean →
      "No price data available after dropping empty columns; skipping plots." ∈
        (runMain providerOk tickers fetched saveCsv ts outdir).msgs) ∧
    ((runMain providerOk tickers fetched saveCsv ts outdir).outcome = Outcome.emptyCorr →
      "Correlation matrix is empty; skipping heatmap and pair listing." ∈
        (runMain providerOk tickers fetched saveCsv ts outdir).msgs) ∧
    ((runMain providerOk tickers fetched saveCsv ts outdir).outcome ≠ Outcome.fatalNoProvider ↔
      (tickers = [] ∨ providerOk = true)) := by
  by_cases hT : tickers = []
  · rw [runMain, if_pos (by simp [hT])]
    simp [hT]
  cases providerOk with
  | false =>
    rw [runMain, if_neg (by simpa using hT)]
    simp [hT]
  | true =>
    by_cases hF : fetched.isEmpty = true
    · rw [runMain, if_neg (by simpa using hT)]
      simp only [Bool.not_true, Bool.false_eq_true, if_false, hF, if_true]
      simp [hT, hF]
    · rw [runMain_eq_core hT rfl (by simpa using hF)]
      have hcases := runMainCore_outcome_cases tickers fetched saveCsv ts outdir
      refine ⟨?_, ?_, ?_, ?_, ?_, ?_, ?_, ?_⟩
      · constructor
        · intro h
          rcases hcases with hc | hc | hc <;> rw [hc] at h <;> exact absurd h (by simp)
        · intro h
          exact absurd h hT
      · constructor
        · intro h
          rcases hcases with hc | hc | hc <;> rw [hc] at h <;> exact absurd h (by simp)
        · intro ⟨_, h⟩
          exact absurd h (by simp)
      · constructor
        · intro h
          rcases hcases with hc | hc | hc <;> rw [hc] at h <;> exact absurd h (by simp)
        · intro ⟨_, _, h⟩
          exact absurd h (by simpa using hF)
      · intro h
        rcases hcases with hc | hc | hc <;> rw [hc] at h <;> exact absurd h (by simp)
      · intro h
        rcases hcases with hc | hc | hc <;> rw [hc] at h <;> exact absurd h (by simp)
      · exact runMainCore_msg_clean tickers fetched saveCsv ts outdir
      · exact runMainCore_msg_corr tickers fetched saveCsv ts outdir
      · constructor
        · intro _
          exact Or.inr rfl
        · intro _ h
          rcases hcases with hc | hc | hc <;> rw [hc] at h <;> exact absurd h (by simp)

/-- Witness for C7: an empty provider result prints the no-data message and
ends with the non-fatal `noData` outcome. -/
theorem C7_witness :
    (runMain true ["A"] ⟨[], [], []⟩ false "" "").outcome = Outcome.noData ∧
    "No data returned for the requested tickers/date range; exiting." ∈
      (runMain true ["A"] ⟨[], [], []⟩ false "" "").msgs ∧
    (runMain true ["A"] ⟨[], [], []⟩ false "" "").outcome ≠ Outcome.fatalNoProvider := by
  have h := C7_exit_behavior true ["A"] ⟨[], [], []⟩ false "" ""
  have ho : (runMain true ["A"] ⟨[], [], []⟩ false "" "").outcome = Outcome.noData :=
    h.2.2.1.mpr ⟨by simp, rfl, by decide⟩
  exact ⟨ho, h.2.2.2.2.1 ho, h.2.2.2.2.2.2.2.mpr (Or.inr rfl)⟩
